import Mathlib

/-!
Shallow embedding of the five-horse board game engine
(sources: `src/game/types.ts`, `src/game/board-config.ts`, `src/game/rules.ts`,
`src/game/utils.ts`, `src/game/ai.ts`).

JavaScript plain objects used as string-keyed maps (`Record<NodeId, ...>`) are
modelled as insertion-ordered association lists `List (String × α)`:
lookup returns the first binding, assignment updates an existing binding in
place and otherwise appends, and `delete` removes the binding.  This matches
the observable semantics of JS objects with string keys (insertion order
enumeration), which the source relies on for `Object.entries` /
`Object.values` iteration.
-/

set_option maxRecDepth 100000

namespace FiveHorse

/-- `type Player = 'black' | 'white'` (types.ts). -/
inductive Player
  | black
  | white
deriving DecidableEq, Repr

/-- `getOpponent` (rules.ts). -/
def getOpponent : Player → Player
  | .black => .white
  | .white => .black

/-- `interface Piece` (types.ts). -/
structure Piece where
  id : String
  player : Player
deriving DecidableEq, Repr

/-- `type NodeId = string` (types.ts). -/
abbrev NodeId := String

/-- `interface BoardNode` (types.ts); coordinates are exact integers in the
source (multiples of 100), so `Int` is a faithful model of the `number`
fields. -/
structure BoardNode where
  id : NodeId
  x : Int
  y : Int
  neighbors : List NodeId
  isMaoce : Bool
deriving DecidableEq, Repr

/-- First-binding lookup in a JS-object-style association list (`obj[k]`). -/
def recGet {α : Type} (m : List (NodeId × α)) (k : NodeId) : Option α :=
  match m with
  | [] => none
  | (k₁, v) :: rest => if k₁ = k then some v else recGet rest k

/-- JS-object-style assignment `obj[k] = v`: replaces the existing binding in
place, otherwise appends (new keys enumerate last). -/
def recSet {α : Type} (m : List (NodeId × α)) (k : NodeId) (v : α) :
    List (NodeId × α) :=
  match m with
  | [] => [(k, v)]
  | (k₁, v₁) :: rest =>
      if k₁ = k then (k, v) :: rest else (k₁, v₁) :: recSet rest k v

/-- JS-object-style `delete obj[k]`. -/
def recDelete {α : Type} (m : List (NodeId × α)) (k : NodeId) :
    List (NodeId × α) :=
  match m with
  | [] => []
  | (k₁, v₁) :: rest => if k₁ = k then rest else (k₁, v₁) :: recDelete rest k

/-- `Record<NodeId, Piece>`: the occupancy map of a position. -/
abbrev Pieces := List (NodeId × Piece)

/-- `interface Move` (types.ts).  In every move produced by the engine the
optional `captures` / `captureSteps` fields are present, so they are modelled
as plain lists. -/
structure Move where
  «from» : NodeId
  «to» : NodeId
  captures : List NodeId
  captureSteps : List (List NodeId)
deriving DecidableEq, Repr

/-- `interface GameState` (types.ts); history snapshots keep the fields the
engine reads. -/
structure GameState where
  pieces : Pieces
  currentPlayer : Player
  winner : Option Player
  history : List (Pieces × Player)
  turnCount : Nat
deriving DecidableEq, Repr

/-! ## Board topology (`board-config.ts`) -/

/-- `getId` (board-config.ts): `` `${r},${c}` ``. -/
def getId (r c : Nat) : NodeId := s!"{r},{c}"

/-- The 5×5 grid nodes, generated row-major exactly as in board-config.ts. -/
def mkGridNode (r c : Nat) : NodeId × BoardNode :=
  (getId r c,
    { id := getId r c, x := (c : Int) * 100, y := (r : Int) * 100,
      neighbors := [], isMaoce := false })

def gridNodes : List (NodeId × BoardNode) :=
  ((List.range 5).map (fun r => (List.range 5).map (fun c => mkGridNode r c))).flatten

/-- The four Maoce (trap) nodes (board-config.ts). -/
def maoceNodes : List (NodeId × BoardNode) :=
  [("m_top",    { id := "m_top",    x := 500, y := 100, neighbors := [], isMaoce := true }),
   ("m_right",  { id := "m_right",  x := 600, y := 200, neighbors := [], isMaoce := true }),
   ("m_bottom", { id := "m_bottom", x := 500, y := 300, neighbors := [], isMaoce := true }),
   ("m_center", { id := "m_center", x := 500, y := 200, neighbors := [], isMaoce := true })]

/-- `addEdge` (board-config.ts): records an undirected edge by pushing each
endpoint onto the other's neighbor list (if both nodes exist and the edge is
not already present).  The second endpoint is re-read after the first update,
mirroring the JS mutation order. -/
def addEdge (m : List (NodeId × BoardNode)) (id1 id2 : NodeId) :
    List (NodeId × BoardNode) :=
  if (recGet m id1).isSome ∧ (recGet m id2).isSome then
    let m1 := match recGet m id1 with
      | some n1 =>
          if id2 ∈ n1.neighbors then m
          else recSet m id1 { n1 with neighbors := n1.neighbors ++ [id2] }
      | none => m
    match recGet m1 id2 with
    | some n2 =>
        if id1 ∈ n2.neighbors then m1
        else recSet m1 id2 { n2 with neighbors := n2.neighbors ++ [id1] }
    | none => m1
  else m

/-- The orthogonal grid edges, in the loop order of board-config.ts
(for each row-major node: right edge, then down edge). -/
def orthEdgesAt (r c : Nat) : List (NodeId × NodeId) :=
  (if c + 1 < 5 then [(getId r c, getId r (c + 1))] else []) ++
  (if r + 1 < 5 then [(getId r c, getId (r + 1) c)] else [])

def orthEdges : List (NodeId × NodeId) :=
  (((List.range 5).map (fun r =>
    ((List.range 5).map (fun c => orthEdgesAt r c)).flatten)) : List (List (NodeId × NodeId))).flatten

/-- The diagonal edges of the four "Union Jack" quadrants
(centers (1,1), (1,3), (3,1), (3,3)), in source order. -/
def diagEdgesAt (r c : Nat) : List (NodeId × NodeId) :=
  [(getId r c, getId (r - 1) (c - 1)),
   (getId r c, getId (r - 1) (c + 1)),
   (getId r c, getId (r + 1) (c - 1)),
   (getId r c, getId (r + 1) (c + 1))]

def diagEdges : List (NodeId × NodeId) :=
  (([(1, 1), (1, 3), (3, 1), (3, 3)] : List (Nat × Nat)).map
    (fun rc => diagEdgesAt rc.1 rc.2)).flatten

/-- The Maoce cluster edges, in source order (attach point is (2,4)). -/
def maoceEdges : List (NodeId × NodeId) :=
  [(getId 2 4, "m_top"), (getId 2 4, "m_bottom"), (getId 2 4, "m_center"),
   ("m_center", "m_top"), ("m_center", "m_right"), ("m_center", "m_bottom"),
   ("m_top", "m_right"), ("m_right", "m_bottom")]

/-- `BOARD_NODES` (board-config.ts): the grid and Maoce nodes with all edges
added in source order. -/
def BOARD_NODES : List (NodeId × BoardNode) :=
  (orthEdges ++ diagEdges ++ maoceEdges).foldl
    (fun m e => addEdge m e.1 e.2) (gridNodes ++ maoceNodes)

/-- `areCollinear` (board-config.ts).  The source compares the (float) cross
product against `1e-5`; all coordinates are integer multiples of 100, where
double arithmetic is exact, so `|val| < 1e-5` holds iff the integer cross
product is zero. -/
def areCollinear (n1 n2 n3 : NodeId) : Bool :=
  match recGet BOARD_NODES n1, recGet BOARD_NODES n2, recGet BOARD_NODES n3 with
  | some p1, some p2, some p3 =>
      (p2.y - p1.y) * (p3.x - p2.x) - (p2.x - p1.x) * (p3.y - p2.y) == 0
  | _, _, _ => false

/-! ## Rule engine (`rules.ts`) -/

/-- Lexicographic code-unit comparison of character lists: the order JS
`Array.prototype.sort()` applies to strings (all node identifiers are
ASCII, where code-unit order and code-point order agree). -/
def charListLe : List Char → List Char → Bool
  | [], _ => true
  | _ :: _, [] => false
  | a :: as, b :: bs =>
      if a.toNat < b.toNat then true
      else if b.toNat < a.toNat then false
      else charListLe as bs

/-- String comparison used to normalize `visitedPairs` keys in `checkPick`
(`[n1, n2].sort()`). -/
def strLe (a b : String) : Bool := charListLe a.data b.data

/-- One inner step of `checkPick`'s double loop over unordered neighbor pairs:
the accumulator is the `visitedPairs` set (normalized pairs, JS builds the key
by sorting the two id strings) together with the `result` list. -/
def pickStep (pieces : Pieces) (center : NodeId) (opp : Player)
    (acc : List (NodeId × NodeId) × List NodeId) (p : NodeId × NodeId) :
    List (NodeId × NodeId) × List NodeId :=
  if p.1 = p.2 then acc
  else
    let key := if strLe p.1 p.2 then (p.1, p.2) else (p.2, p.1)
    if key ∈ acc.1 then acc
    else
      let visited := acc.1 ++ [key]
      if areCollinear p.1 center p.2 then
        match recGet pieces p.1, recGet pieces p.2 with
        | some q1, some q2 =>
            if q1.player = opp ∧ q2.player = opp then
              (visited, acc.2 ++ [p.1, p.2])
            else (visited, acc.2)
        | _, _ => (visited, acc.2)
      else (visited, acc.2)

/-- `checkPick` (rules.ts): opponent–center–opponent flanking pairs among
the center's neighbors; both members of each found pair are returned. -/
def checkPick (pieces : Pieces) (center : NodeId) (me : Player) : List NodeId :=
  match recGet BOARD_NODES center with
  | none => []
  | some centerNode =>
      let opp := getOpponent me
      let pairs := (centerNode.neighbors.map (fun n1 =>
        centerNode.neighbors.map (fun n2 => (n1, n2)))).flatten
      (pairs.foldl (pickStep pieces center opp) ([], [])).2

/-- `checkClamp` (rules.ts): for each opponent neighbor `n1` of the center,
if some neighbor `n2` of `n1` (other than the center) is collinear with
(center, n1) and holds the mover's piece, `n1` is captured. -/
def checkClamp (pieces : Pieces) (center : NodeId) (me : Player) : List NodeId :=
  match recGet BOARD_NODES center with
  | none => []
  | some centerNode =>
      let opp := getOpponent me
      centerNode.neighbors.foldl (fun result n1 =>
        match recGet pieces n1 with
        | some q1 =>
            if q1.player = opp then
              match recGet BOARD_NODES n1 with
              | some n1Node =>
                  n1Node.neighbors.foldl (fun result n2 =>
                    if n2 = center then result
                    else if areCollinear center n1 n2 then
                      match recGet pieces n2 with
                      | some q2 => if q2.player = me then result ++ [n1] else result
                      | none => result
                    else result) result
              | none => result
            else result
        | none => result) []

/-- The per-center capture choice of `calculateRecursiveCaptures` (rules.ts):
pick targets if any exist, otherwise clamp targets. -/
def centerFlips (pieces : Pieces) (centerId : NodeId) (me : Player) : List NodeId :=
  let pickTargets := checkPick pieces centerId me
  if pickTargets.length > 0 then pickTargets
  else checkClamp pieces centerId me

/-- The mutable locals of one pass of the cascade loop in
`calculateRecursiveCaptures`. -/
structure PassState where
  pieces : Pieces
  totalCaptures : List NodeId
  currentStepFlips : List NodeId
  nextBatch : List NodeId
deriving DecidableEq, Repr

/-- One `flipped.forEach(fid => ...)` step of the cascade: a node not yet in
`totalCaptures` is recorded, its piece's ownership is flipped in the virtual
board, and it becomes active for the next pass. -/
def applyFlip (me : Player) (st : PassState) (fid : NodeId) : PassState :=
  if fid ∈ st.totalCaptures then st
  else
    let st₁ := { st with totalCaptures := st.totalCaptures ++ [fid],
                         currentStepFlips := st.currentStepFlips ++ [fid] }
    match recGet st₁.pieces fid with
    | some p =>
        { st₁ with pieces := recSet st₁.pieces fid { p with player := me },
                   nextBatch := st₁.nextBatch ++ [fid] }
    | none => st₁

/-- Processing of one active center in a cascade pass: skip if already
processed, otherwise apply the pick-else-clamp flips found at this center. -/
def processCenter (me : Player) (acc : List NodeId × PassState) (centerId : NodeId) :
    List NodeId × PassState :=
  if centerId ∈ acc.1 then acc
  else
    let processed := acc.1 ++ [centerId]
    let flipped := centerFlips acc.2.pieces centerId me
    (processed, flipped.foldl (applyFlip me) acc.2)

/-- The `while (activeNodes.length > 0)` worklist of
`calculateRecursiveCaptures`, with explicit fuel.  The source loop always
terminates: every continuing pass adds at least one node (a key of the
unchanged virtual occupancy map, never repeated) to `totalCaptures`, so
`pieces.length + 1` passes always suffice; the caller passes that fuel. -/
def cascadeLoop (me : Player) :
    Nat → List NodeId → List NodeId → Pieces → List NodeId → List (List NodeId) →
    List NodeId × List (List NodeId)
  | 0, _, _, _, total, steps => (total, steps)
  | _ + 1, [], _, _, total, steps => (total, steps)
  | fuel + 1, activeNodes, processed, pieces, total, steps =>
      let start : PassState :=
        { pieces := pieces, totalCaptures := total, currentStepFlips := [], nextBatch := [] }
      let res := activeNodes.foldl (processCenter me) (processed, start)
      let steps₁ :=
        if res.2.currentStepFlips.length > 0 then steps ++ [res.2.currentStepFlips] else steps
      cascadeLoop me fuel res.2.nextBatch res.1 res.2.pieces res.2.totalCaptures steps₁

/-- `calculateRecursiveCaptures` (rules.ts): move the piece on a virtual
board, then run the capture cascade seeded with the destination; returns
(`allCaptures`, `steps`). -/
def calculateRecursiveCaptures (initialState : GameState) (fm toId : NodeId) :
    List NodeId × List (List NodeId) :=
  let currentPlayer := initialState.currentPlayer
  let pieces₀ := initialState.pieces
  let mover := recGet pieces₀ fm
  let pieces₁ := recDelete pieces₀ fm
  let pieces₂ := match mover with
    | some p => recSet pieces₁ toId p
    | none => pieces₁
  cascadeLoop currentPlayer (pieces₂.length + 1) [toId] [] pieces₂ [] []

/-- The `for (let i = 0; i < 10; i++)` sliding loop of `getValidMoves`
(rules.ts): from (`prevId`, `currentId`) take the first neighbor of the
current node, other than the departed one, collinear with the last two nodes;
continue while it exists and is empty, collecting each such node. -/
def slideLoop (pieces : Pieces) : Nat → NodeId → NodeId → List NodeId
  | 0, _, _ => []
  | fuel + 1, prevId, currentId =>
      match recGet BOARD_NODES currentId with
      | none => []
      | some currNode =>
          match currNode.neighbors.find?
              (fun nextId => nextId ≠ prevId && areCollinear prevId currentId nextId) with
          | some nextInLine =>
              if (recGet pieces nextInLine).isNone then
                nextInLine :: slideLoop pieces fuel currentId nextInLine
              else []
          | none => []

/-- `getValidMoves` (rules.ts): destinations are empty immediate neighbors
plus their sliding continuations; each destination is annotated with its
recursive capture consequence. -/
def getValidMoves (state : GameState) (fromId : NodeId) : List Move :=
  match recGet state.pieces fromId with
  | none => []
  | some piece =>
      if piece.player ≠ state.currentPlayer then []
      else
        match recGet BOARD_NODES fromId with
        | none => []
        | some startNode =>
            let potentialDestinations :=
              (startNode.neighbors.map (fun neighborId =>
                if (recGet state.pieces neighborId).isNone then
                  neighborId :: slideLoop state.pieces 10 fromId neighborId
                else [])).flatten
            potentialDestinations.map (fun toId =>
              let res := calculateRecursiveCaptures state fromId toId
              { «from» := fromId, «to» := toId,
                captures := res.1, captureSteps := res.2 })

/-! ## Win evaluation (`utils.ts`) -/

/-- Count of a player's pieces
(`Object.values(state.pieces).filter(p => p.player === pl).length`). -/
def piecesCount (pieces : Pieces) (pl : Player) : Nat :=
  (pieces.filter (fun e => e.2.player = pl)).length

/-- The trap node identifiers, in `BOARD_NODES` enumeration order
(`Object.values(BOARD_NODES).filter(n => n.isMaoce).map(n => n.id)`). -/
def maoceIds : List NodeId :=
  (BOARD_NODES.filter (fun e => e.2.isMaoce)).map (fun e => e.2.id)

/-- `isAllInMaoce` (utils.ts): a side with no pieces is explicitly excluded
(`if (playerPieces.length === 0) return false`). -/
def isAllInMaoce (pieces : Pieces) (player : Player) : Bool :=
  let playerPieces := pieces.filter (fun e => e.2.player = player)
  if playerPieces.length = 0 then false
  else playerPieces.all (fun e => e.1 ∈ maoceIds)

/-- `checkWinCondition` (utils.ts): capture-all first, then total confinement
to the Maoce trap. -/
def checkWinCondition (state : GameState) : Option Player :=
  let blackCount := piecesCount state.pieces .black
  let whiteCount := piecesCount state.pieces .white
  if blackCount = 0 then some .white
  else if whiteCount = 0 then some .black
  else if isAllInMaoce state.pieces .black then some .white
  else if isAllInMaoce state.pieces .white then some .black
  else none

/-! ## Search engine (`ai.ts`)

JavaScript `-Infinity` / `Infinity` are modelled by the sentinels `NEG_INF` /
`INF`.  All heuristic evaluations of positions satisfying the data-model
invariant (at most one piece per board node) lie in `[-17400, 17400]`, far
inside the sentinels, so every comparison the source performs has the same
outcome in this model. -/

def NEG_INF : Int := -1000000000

def INF : Int := 1000000000

def SCORES_WIN : Int := 10000

def SCORES_LOSS : Int := -10000

def PIECE_VALUE : Int := 100

def MAOCE_PENALTY : Int := -500

/-- One `Object.entries(state.pieces).forEach` step inside `evaluate`
(ai.ts): signed piece value plus the trap adjustment. -/
def evalStep (aiPlayer : Player) (score : Int) (e : NodeId × Piece) : Int :=
  if e.2.player = aiPlayer then
    let score₁ := score + PIECE_VALUE
    match recGet BOARD_NODES e.1 with
    | some n => if n.isMaoce then score₁ + MAOCE_PENALTY else score₁
    | none => score₁
  else
    let score₁ := score - PIECE_VALUE
    match recGet BOARD_NODES e.1 with
    | some n => if n.isMaoce then score₁ - MAOCE_PENALTY else score₁
    | none => score₁

/-- The piece-value accumulation of `evaluate` (ai.ts). -/
def evaluatePieces (pieces : Pieces) (aiPlayer : Player) : Int :=
  pieces.foldl (evalStep aiPlayer) 0

/-- `evaluate` (ai.ts): dominant win/loss constant, otherwise signed piece
values with a trap penalty. -/
def evaluate (state : GameState) (aiPlayer : Player) : Int :=
  match checkWinCondition state with
  | some w => if w = aiPlayer then SCORES_WIN else SCORES_LOSS
  | none => evaluatePieces state.pieces aiPlayer

/-- `getAllMoves` (ai.ts): all legal moves of one player's pieces, in piece
enumeration order. -/
def getAllMoves (state : GameState) (player : Player) : List Move :=
  (state.pieces.map (fun e =>
    if e.2.player = player then getValidMoves state e.1 else [])).flatten

/-- The capture-application loop shared by `simulateMove` (ai.ts) and the
per-group staging of `executeMove` (page component): each listed node's
piece, when present, has its ownership flipped to the given player. -/
def applyCaptures (pl : Player) (pieces : Pieces) (caps : List NodeId) : Pieces :=
  caps.foldl (fun ps capId =>
    match recGet ps capId with
    | some p => recSet ps capId { p with player := pl }
    | none => ps) pieces

/-- The piece-relocation step shared by `simulateMove` and `executeMove`:
`delete pieces[from]; pieces[to] = movingPiece`.  (When the source node is
empty the JS code would store `undefined`, which never happens for
engine-generated moves; the model then leaves the map unchanged.) -/
def movePiece (pieces : Pieces) (fm toId : NodeId) : Pieces :=
  match recGet pieces fm with
  | some p => recSet (recDelete pieces fm) toId p
  | none => recDelete pieces fm

/-- `simulateMove` (ai.ts). -/
def simulateMove (state : GameState) (move : Move) : GameState :=
  let newPieces := movePiece state.pieces move.«from» move.«to»
  let newPieces := applyCaptures state.currentPlayer newPieces move.captures
  { state with
      pieces := newPieces,
      currentPlayer := getOpponent state.currentPlayer,
      history := [],
      turnCount := state.turnCount + 1,
      winner := none }

/-- The maximizing loop of `minimax` (ai.ts), fail-soft with the
`beta <= alpha` cutoff taken after recording the child's score. -/
def abMax (f : GameState → Int → Int → Int) (s : GameState) :
    List Move → Int → Int → Int → Int
  | [], maxEval, _, _ => maxEval
  | mv :: rest, maxEval, α, β =>
      let evalScore := f (simulateMove s mv) α β
      let maxEval₁ := max maxEval evalScore
      let α₁ := max α evalScore
      if β ≤ α₁ then maxEval₁ else abMax f s rest maxEval₁ α₁ β

/-- The minimizing loop of `minimax` (ai.ts). -/
def abMin (f : GameState → Int → Int → Int) (s : GameState) :
    List Move → Int → Int → Int → Int
  | [], minEval, _, _ => minEval
  | mv :: rest, minEval, α, β =>
      let evalScore := f (simulateMove s mv) α β
      let minEval₁ := min minEval evalScore
      let β₁ := min β evalScore
      if β₁ ≤ α then minEval₁ else abMin f s rest minEval₁ α β₁

/-- `minimax` (ai.ts), with the caller-supplied depth as structural fuel
(the source checks `depth === 0` before recursing with `depth - 1`). -/
def minimax (aiPlayer : Player) : Nat → GameState → Bool → Int → Int → Int
  | 0, s, _, _, _ => evaluate s aiPlayer
  | d + 1, s, isMaximizing, α, β =>
      if (checkWinCondition s).isSome then evaluate s aiPlayer
      else
        let currPlayer := if isMaximizing then aiPlayer else getOpponent aiPlayer
        let moves := getAllMoves s currPlayer
        if moves.length = 0 then evaluate s aiPlayer
        else if isMaximizing then
          abMax (fun s₁ α₁ β₁ => minimax aiPlayer d s₁ false α₁ β₁) s moves NEG_INF α β
        else
          abMin (fun s₁ α₁ β₁ => minimax aiPlayer d s₁ true α₁ β₁) s moves INF α β

/-- Stable insertion of a move into a list ordered by descending capture
count: the unique output of any stable sort, which is what
`moves.sort((a, b) => (b.captures?.length || 0) - (a.captures?.length || 0))`
produces under the ECMAScript stable-sort requirement. -/
def insertByCapturesDesc (mv : Move) : List Move → List Move
  | [] => [mv]
  | y :: ys =>
      if y.captures.length ≤ mv.captures.length then mv :: y :: ys
      else y :: insertByCapturesDesc mv ys

/-- The stable descending-by-capture-count sort applied at the root of
`getBestMove` (ai.ts). -/
def sortByCapturesDesc (ms : List Move) : List Move :=
  ms.foldr insertByCapturesDesc []

/-- The root loop of `getBestMove` (ai.ts): strict improvement, no root
pruning (`alpha` and `beta` are `const` there). -/
def bestLoop (score : Move → Int) : List Move → Option Move → Int → Option Move × Int
  | [], bm, bs => (bm, bs)
  | mv :: rest, bm, bs =>
      let sc := score mv
      if bs < sc then bestLoop score rest (some mv) sc
      else bestLoop score rest bm bs

/-- The root score of one candidate move in `getBestMove`: the alpha-beta
value of the simulated child with the full window. -/
def rootScore (state : GameState) (depth : Nat) (aiPlayer : Player) (mv : Move) : Int :=
  minimax aiPlayer (depth - 1) (simulateMove state mv) false NEG_INF INF

/-- `getBestMove` (ai.ts) returning both the chosen move and the root score
it attained. -/
def getBestMovePair (state : GameState) (depth : Nat) (aiPlayer : Player) :
    Option Move × Int :=
  let moves := sortByCapturesDesc (getAllMoves state aiPlayer)
  bestLoop (rootScore state depth aiPlayer) moves none NEG_INF

/-- `getBestMove` (ai.ts). -/
def getBestMove (state : GameState) (depth : Nat) (aiPlayer : Player) : Option Move :=
  (getBestMovePair state depth aiPlayer).1

/-- Depth-limited minimax over the same move sets with no pruning and no
move ordering: the reference function the spec's refinement claim compares
the alpha-beta search against. -/
def plainMinimax (aiPlayer : Player) : Nat → GameState → Bool → Int
  | 0, s, _ => evaluate s aiPlayer
  | d + 1, s, isMaximizing =>
      if (checkWinCondition s).isSome then evaluate s aiPlayer
      else
        let currPlayer := if isMaximizing then aiPlayer else getOpponent aiPlayer
        let moves := getAllMoves s currPlayer
        if moves.length = 0 then evaluate s aiPlayer
        else if isMaximizing then
          ((moves.map (fun mv => plainMinimax aiPlayer d (simulateMove s mv) false)).foldl max NEG_INF)
        else
          ((moves.map (fun mv => plainMinimax aiPlayer d (simulateMove s mv) true)).foldl min INF)

/-- The plain (unpruned, unordered) root score over the generated move set:
what the spec asserts `getBestMove`'s root score equals. -/
def plainRootScore (state : GameState) (depth : Nat) (aiPlayer : Player) : Int :=
  ((getAllMoves state aiPlayer).map
    (fun mv => plainMinimax aiPlayer (depth - 1) (simulateMove state mv) false)).foldl max NEG_INF

/-- The position well-formedness invariant of the data model (§3 of the
spec): at most one piece per node and every occupied node exists in the
topology. -/
def WF (s : GameState) : Prop :=
  (s.pieces.map Prod.fst).Nodup ∧
    ∀ k ∈ s.pieces.map Prod.fst, (recGet BOARD_NODES k).isSome = true

instance (s : GameState) : Decidable (WF s) := by
  unfold WF; infer_instance

/-- Fail-soft alpha-beta correctness specification (verification layer): a
pruned result `r` relates to the true minimax value `v` of the same subtree
by failing low, failing high, or being exact inside the window. -/
def ABSpec (r v α β : Int) : Prop :=
  (r ≤ α → v ≤ r) ∧ (β ≤ r → r ≤ v) ∧ (α < r → r < β → r = v)

/-- Destination reachability as §4.2 of the spec words it: a destination is
either a direct empty neighbor of the source, or is reached by a colinear
slide through empty nodes only — every intermediate node is an empty
neighbor of its predecessor, colinear with the previous two nodes visited.
The pair (`prev`, `curr`) tracks the last two nodes of the slide. -/
inductive SlideReach (s : GameState) (f : NodeId) : NodeId → NodeId → Prop
  | base (node : BoardNode) (n : NodeId) :
      recGet BOARD_NODES f = some node → n ∈ node.neighbors →
      recGet s.pieces n = none → SlideReach s f f n
  | step (prev curr next : NodeId) (node : BoardNode) :
      SlideReach s f prev curr →
      recGet BOARD_NODES curr = some node → next ∈ node.neighbors →
      next ≠ prev → areCollinear prev curr next = true →
      recGet s.pieces next = none → SlideReach s f curr next

/-- Invariant of the mutable locals across one cascade pass (verification
layer, not part of the source): the capture total extends the pass-start
total `total₀` by exactly the current step's flips, stays duplicate-free, the
vacated source `f` stays empty, the destination `t` keeps the mover's piece,
and neither `f` nor `t` is ever recorded as captured. -/
def PassInv (me : Player) (f t : NodeId) (total₀ : List NodeId) (st : PassState) : Prop :=
  st.totalCaptures = total₀ ++ st.currentStepFlips ∧
  st.totalCaptures.Nodup ∧
  recGet st.pieces f = none ∧
  (∃ q, recGet st.pieces t = some q ∧ q.player = me) ∧
  f ∉ st.totalCaptures ∧ t ∉ st.totalCaptures

/-! ## Concrete positions used to instantiate the theorems -/

/-- Two lone pieces: black on the (0,0) corner, white adjacent below. -/
def exPair : GameState :=
  { pieces := [("0,0", { id := "b-0", player := .black }),
               ("1,0", { id := "w-0", player := .white })],
    currentPlayer := .black, winner := none, history := [], turnCount := 0 }

/-- White's last piece sits on the Maoce center (already confined), black has
a far-away quiet piece enumerated first plus two pieces able to capture by
clamping; every black move therefore scores the win constant. -/
def exTie : GameState :=
  { pieces := [("4,4", { id := "b-0", player := .black }),
               ("m_right", { id := "b-1", player := .black }),
               ("m_bottom", { id := "b-2", player := .black }),
               ("m_center", { id := "w-0", player := .white })],
    currentPlayer := .black, winner := none, history := [], turnCount := 0 }

/-- A board with no black pieces at all. -/
def exElim : GameState :=
  { pieces := [("4,4", { id := "w-0", player := .white })],
    currentPlayer := .black, winner := none, history := [], turnCount := 0 }

/-- Occupancy with both a pick pair and a clamp victim around center (2,2)
for a black arrival: white on (1,2)/(3,2) (vertical pick pair), white on
(2,1) backed by black on (2,0) (clamp). -/
def exBoth : Pieces :=
  [("1,2", { id := "w-1", player := .white }),
   ("3,2", { id := "w-2", player := .white }),
   ("2,1", { id := "w-3", player := .white }),
   ("2,0", { id := "b-1", player := .black })]

/-- The clamp-capture move available in `exTie` from `m_right`. -/
def mvClamp : Move :=
  { «from» := "m_right", «to» := "m_top", captures := ["m_center"],
    captureSteps := [["m_center"]] }

/-- A captureless single-step move in `exPair`. -/
def mvQuiet : Move :=
  { «from» := "0,0", «to» := "0,1", captures := [], captureSteps := [] }

/-- A captureless sliding move in `exPair`. -/
def mvSlide : Move :=
  { «from» := "0,0", «to» := "0,2", captures := [], captureSteps := [] }

/-- The first move `getAllMoves` generates in `exTie` (captureless). -/
def mvTieQuiet : Move :=
  { «from» := "4,4", «to» := "3,4", captures := [], captureSteps := [] }

/-- A capture move generated later in `exTie`, preferred by the root sort. -/
def mvTieCapture : Move :=
  { «from» := "4,4", «to» := "2,4", captures := ["m_center"],
    captureSteps := [["m_center"]] }

/-! ## Basic association-list lemmas -/

theorem recGet_of_mem_nodup {α : Type} {l : List (NodeId × α)} {k : NodeId} {v : α}
    (hnd : (l.map Prod.fst).Nodup) (h : (k, v) ∈ l) : recGet l k = some v := by
  induction l with
  | nil => cases h
  | cons e rest ih =>
      simp only [List.map_cons, List.nodup_cons] at hnd
      rcases List.mem_cons.mp h with h | h
      · subst h
        simp [recGet]
      · have hk : e.1 ≠ k := by
          intro hek
          exact hnd.1 (hek ▸ List.mem_map_of_mem Prod.fst h)
        simpa [recGet, hk] using ih hnd.2 h

theorem recGet_eq_none_iff {α : Type} (l : List (NodeId × α)) (k : NodeId) :
    recGet l k = none ↔ k ∉ l.map Prod.fst := by
  induction l with
  | nil => simp [recGet]
  | cons e rest ih =>
      by_cases h : e.1 = k
      · simp [recGet, h]
      · rw [recGet, if_neg h, ih]
        simp [Ne.symm h]

theorem recGet_mem {α : Type} {l : List (NodeId × α)} {k : NodeId} {v : α}
    (h : recGet l k = some v) : (k, v) ∈ l := by
  induction l with
  | nil => simp [recGet] at h
  | cons e rest ih =>
      obtain ⟨a, b⟩ := e
      by_cases he : a = k
      · rw [recGet, if_pos he] at h
        obtain rfl := he
        obtain rfl : b = v := by injection h
        exact List.mem_cons_self _ _
      · rw [recGet, if_neg he] at h
        exact List.mem_cons_of_mem _ (ih h)

theorem recGet_isSome_iff {α : Type} (l : List (NodeId × α)) (k : NodeId) :
    (recGet l k).isSome = true ↔ k ∈ l.map Prod.fst := by
  cases hr : recGet l k with
  | none =>
      simp only [hr, Option.isSome_none, Bool.false_eq_true, false_iff]
      exact (recGet_eq_none_iff l k).mp hr
  | some v =>
      simp only [hr, Option.isSome_some, true_iff]
      exact List.mem_map_of_mem Prod.fst (recGet_mem hr)

theorem recSet_keys_of_mem {α : Type} (l : List (NodeId × α)) (k : NodeId) (v : α)
    (h : k ∈ l.map Prod.fst) : (recSet l k v).map Prod.fst = l.map Prod.fst := by
  induction l with
  | nil => cases h
  | cons e rest ih =>
      by_cases he : e.1 = k
      · simp [recSet, he]
      · rw [List.map_cons] at h
        have hk : k ∈ rest.map Prod.fst := by
          rcases List.mem_cons.mp h with h' | h'
          · exact absurd h'.symm he
          · exact h'
        simp [recSet, he, ih hk]

theorem recSet_keys_of_not_mem {α : Type} (l : List (NodeId × α)) (k : NodeId) (v : α)
    (h : k ∉ l.map Prod.fst) : recSet l k v = l ++ [(k, v)] := by
  induction l with
  | nil => simp [recSet]
  | cons e rest ih =>
      simp only [List.map_cons, List.mem_cons] at h
      push_neg at h
      have he : e.1 ≠ k := fun hek => h.1 hek.symm
      simp [recSet, he, ih h.2]

theorem recDelete_sublist {α : Type} (l : List (NodeId × α)) (k : NodeId) :
    (recDelete l k).Sublist l := by
  induction l with
  | nil => simp [recDelete]
  | cons e rest ih =>
      by_cases he : e.1 = k
      · rw [recDelete, if_pos he]
        exact List.sublist_cons_self e rest
      · rw [recDelete, if_neg he]
        exact ih.cons₂ e

theorem recDelete_keys_sublist {α : Type} (l : List (NodeId × α)) (k : NodeId) :
    ((recDelete l k).map Prod.fst).Sublist (l.map Prod.fst) :=
  (recDelete_sublist l k).map Prod.fst

theorem recGet_recDelete_self {α : Type} (l : List (NodeId × α)) (k : NodeId)
    (hnd : (l.map Prod.fst).Nodup) : recGet (recDelete l k) k = none := by
  induction l with
  | nil => simp [recDelete, recGet]
  | cons e rest ih =>
      simp only [List.map_cons, List.nodup_cons] at hnd
      by_cases he : e.1 = k
      · rw [recDelete, if_pos he, recGet_eq_none_iff]
        exact he ▸ hnd.1
      · rw [recDelete, if_neg he, recGet, if_neg he]
        exact ih hnd.2

theorem recGet_recSet_self {α : Type} (l : List (NodeId × α)) (k : NodeId) (v : α) :
    recGet (recSet l k v) k = some v := by
  induction l with
  | nil => simp [recSet, recGet]
  | cons e rest ih =>
      by_cases he : e.1 = k <;> simp [recSet, recGet, he, ih]

theorem recGet_recSet_other {α : Type} (l : List (NodeId × α)) (k k' : NodeId) (v : α)
    (h : k ≠ k') : recGet (recSet l k v) k' = recGet l k' := by
  induction l with
  | nil => simp [recSet, recGet, h]
  | cons e rest ih =>
      by_cases he : e.1 = k
      · subst he
        rw [recSet, if_pos rfl, recGet, if_neg h, recGet, if_neg h]
      · rw [recSet, if_neg he]
        by_cases he' : e.1 = k'
        · rw [recGet, if_pos he', recGet, if_pos he']
        · rw [recGet, if_neg he', recGet, if_neg he', ih]

theorem recGet_recDelete_other {α : Type} (l : List (NodeId × α)) (k k' : NodeId)
    (h : k ≠ k') : recGet (recDelete l k) k' = recGet l k' := by
  induction l with
  | nil => simp [recDelete]
  | cons e rest ih =>
      by_cases he : e.1 = k
      · subst he
        rw [recDelete, if_pos rfl, recGet, if_neg h]
      · rw [recDelete, if_neg he]
        by_cases he' : e.1 = k'
        · rw [recGet, if_pos he', recGet, if_pos he']
        · rw [recGet, if_neg he', recGet, if_neg he', ih]

/-! ## C3: pick is evaluated first and suppresses clamp at a center -/

/-- C3: during capture cascade resolution every active center is resolved by
`centerFlips`; if any pick pair exists at the center the flips are exactly the
pick targets and the clamp pattern plays no role, and clamp targets are used
only when no pick pair exists; `processCenter` (the per-center step of the
cascade pass) applies precisely those flips. -/
theorem C3_pick_priority (pieces : Pieces) (center : NodeId) (me : Player) :
    (checkPick pieces center me ≠ [] →
      centerFlips pieces center me = checkPick pieces center me) ∧
    (checkPick pieces center me = [] →
      centerFlips pieces center me = checkClamp pieces center me) ∧
    (∀ (processed : List NodeId) (st : PassState), center ∉ processed →
      processCenter me (processed, st) center =
        (processed ++ [center], (centerFlips st.pieces center me).foldl (applyFlip me) st)) := by
  refine ⟨?_, ?_, ?_⟩
  · intro h
    rw [centerFlips, if_pos]
    simpa [List.length_pos] using h
  · intro h
    rw [centerFlips, h]
    simp
  · intro processed st h
    rw [processCenter, if_neg h]

/-- C3 witness: a concrete occupancy where both a pick pair and a clamp
victim are present at center (2,2); the flips are exactly the pick targets,
even though the clamp check would have found a different, non-empty set. -/
theorem C3_pick_priority_witness :
    checkPick exBoth "2,2" .black ≠ [] ∧
    checkClamp exBoth "2,2" .black = ["2,1"] ∧
    centerFlips exBoth "2,2" .black = checkPick exBoth "2,2" .black ∧
    checkPick exBoth "2,2" .black = ["1,2", "3,2"] :=
  ⟨by decide, by decide, (C3_pick_priority exBoth "2,2" .black).1 (by decide), by decide⟩

/-! ## C9: topology queries with unknown node identifiers -/

/-- C9 counterexample: the claim asserts a hard failure on unknown node
identifiers, but `areCollinear` (and the pattern checkers) silently return
the default `false` / empty results for an identifier that is not in the
board topology. -/
theorem C9_counterexample :
    recGet BOARD_NODES "9,9" = none ∧
    areCollinear "9,9" "0,0" "0,1" = false ∧
    checkPick [] "9,9" .black = [] ∧
    checkClamp [] "9,9" .black = [] := by
  refine ⟨by decide, by decide, by decide, by decide⟩

/-- C9 amended: a topology query given an unknown node identifier silently
returns its default value (`false` for `areCollinear`, empty capture lists
for the pattern checkers) instead of failing hard. -/
theorem C9_silent_default :
    (∀ n1 n2 n3 : NodeId,
      recGet BOARD_NODES n1 = none ∨ recGet BOARD_NODES n2 = none ∨
        recGet BOARD_NODES n3 = none →
      areCollinear n1 n2 n3 = false) ∧
    (∀ (pieces : Pieces) (c : NodeId) (me : Player), recGet BOARD_NODES c = none →
      checkPick pieces c me = [] ∧ checkClamp pieces c me = []) := by
  constructor
  · intro n1 n2 n3 h
    rw [areCollinear]
    rcases h1 : recGet BOARD_NODES n1 with _ | p1 <;>
      rcases h2 : recGet BOARD_NODES n2 with _ | p2 <;>
      rcases h3 : recGet BOARD_NODES n3 with _ | p3 <;>
      simp_all
  · intro pieces c me h
    rw [checkPick, checkClamp, h]
    exact ⟨rfl, rfl⟩

/-- C9 witness: instantiation of the silent-default behavior at the unknown
identifier "zz". -/
theorem C9_silent_default_witness :
    areCollinear "zz" "0,0" "0,1" = false ∧
    checkPick [] "zz" .white = [] ∧ checkClamp [] "zz" .white = [] :=
  ⟨C9_silent_default.1 "zz" "0,0" "0,1" (Or.inl (by decide)),
   C9_silent_default.2 [] "zz" .white (by decide)⟩

/-! ## C4: characterization of the win condition -/

theorem isAllInMaoce_eq_true_iff (pieces : Pieces) (pl : Player) :
    isAllInMaoce pieces pl = true ↔
      0 < piecesCount pieces pl ∧ ∀ e ∈ pieces, e.2.player = pl → e.1 ∈ maoceIds := by
  unfold isAllInMaoce piecesCount
  by_cases h : (pieces.filter (fun e => decide (e.2.player = pl))).length = 0
  · simp [h]
  · rw [if_neg h]
    have hpos : 0 < (pieces.filter (fun e => decide (e.2.player = pl))).length :=
      Nat.pos_of_ne_zero h
    simp only [hpos, true_and, List.all_eq_true, List.mem_filter,
      decide_eq_true_eq, and_imp, Prod.forall]

/-- C4: `checkWinCondition` returns a winner exactly when one side has no
pieces or one side's non-empty piece set lies entirely on Maoce (trap) nodes;
the elimination checks take precedence over the confinement checks, and a
side with zero pieces never passes the confinement check itself. -/
theorem C4_win_characterization (s : GameState) :
    ((checkWinCondition s).isSome ↔
      (piecesCount s.pieces .black = 0 ∨ piecesCount s.pieces .white = 0 ∨
       (0 < piecesCount s.pieces .black ∧
         ∀ e ∈ s.pieces, e.2.player = .black → e.1 ∈ maoceIds) ∨
       (0 < piecesCount s.pieces .white ∧
         ∀ e ∈ s.pieces, e.2.player = .white → e.1 ∈ maoceIds))) ∧
    (piecesCount s.pieces .black = 0 → checkWinCondition s = some .white) ∧
    (piecesCount s.pieces .black ≠ 0 → piecesCount s.pieces .white = 0 →
      checkWinCondition s = some .black) ∧
    (∀ pl : Player, piecesCount s.pieces pl = 0 → isAllInMaoce s.pieces pl = false) := by
  have heq : checkWinCondition s =
      if piecesCount s.pieces .black = 0 then some .white
      else if piecesCount s.pieces .white = 0 then some .black
      else if isAllInMaoce s.pieces .black then some .white
      else if isAllInMaoce s.pieces .white then some .black
      else none := rfl
  refine ⟨?_, ?_, ?_, ?_⟩
  · rw [heq]
    split_ifs with h1 h2 h3 h4 <;> simp only [Option.isSome_some, Option.isSome_none,
      Bool.false_eq_true, true_iff, false_iff, not_or, not_and]
    · exact Or.inl h1
    · exact Or.inr (Or.inl h2)
    · exact Or.inr (Or.inr (Or.inl ((isAllInMaoce_eq_true_iff s.pieces .black).mp h3)))
    · exact Or.inr (Or.inr (Or.inr ((isAllInMaoce_eq_true_iff s.pieces .white).mp h4)))
    · refine ⟨h1, h2, ?_, ?_⟩
      · intro hpos hall
        exact h3 ((isAllInMaoce_eq_true_iff s.pieces .black).mpr ⟨hpos, hall⟩)
      · intro hpos hall
        exact h4 ((isAllInMaoce_eq_true_iff s.pieces .white).mpr ⟨hpos, hall⟩)
  · intro h1
    rw [heq, if_pos h1]
  · intro h1 h2
    rw [heq, if_neg h1, if_pos h2]
  · intro pl h
    cases hb : isAllInMaoce s.pieces pl
    · rfl
    · have := ((isAllInMaoce_eq_true_iff s.pieces pl).mp hb).1
      omega

/-- C4 witness: on a board where black has no pieces (and white's lone piece
is not trapped), the elimination rule fires and white wins. -/
theorem C4_win_characterization_witness :
    piecesCount exElim.pieces .black = 0 ∧ checkWinCondition exElim = some .white :=
  ⟨by decide, (C4_win_characterization exElim).2.1 (by decide)⟩

/-! ## C10: asking the search for the non-moving side -/

/-- C10: when the `aiPlayer` argument differs from the position's side to
move, `getValidMoves` rejects every piece of that player (its guard compares
against `state.currentPlayer`), so `getAllMoves` is empty and `getBestMove`
returns `none` regardless of depth or material. -/
theorem C10_wrong_side_returns_none (s : GameState) (d : Nat) (ai : Player)
    (hnd : (s.pieces.map Prod.fst).Nodup) (hne : ai ≠ s.currentPlayer) :
    getAllMoves s ai = [] ∧ getBestMove s d ai = none := by
  have hmv : getAllMoves s ai = [] := by
    unfold getAllMoves
    rw [List.flatten_eq_nil_iff]
    intro l hl
    rw [List.mem_map] at hl
    obtain ⟨e, he, rfl⟩ := hl
    by_cases hp : e.2.player = ai
    · rw [if_pos hp]
      have hlook : recGet s.pieces e.1 = some e.2 :=
        recGet_of_mem_nodup hnd (by simpa using he)
      have hcp : e.2.player ≠ s.currentPlayer := by
        rw [hp]
        exact hne
      simp [getValidMoves, hlook, hcp]
    · rw [if_neg hp]
  refine ⟨hmv, ?_⟩
  unfold getBestMove getBestMovePair
  rw [hmv]
  rfl

/-- C10 witness: in the two-piece position it is black's turn; querying the
search for white yields no move even though white has an adjacent empty
destination. -/
theorem C10_wrong_side_returns_none_witness :
    getAllMoves exPair .white = [] ∧ getBestMove exPair 3 .white = none :=
  C10_wrong_side_returns_none exPair 3 .white (by decide) (by decide)

/-! ## Structure of generated moves -/

/-- The board topology is closed: every listed neighbor is itself a board
node. -/
theorem boardClosed :
    ∀ e ∈ BOARD_NODES, ∀ nb ∈ e.2.neighbors, (recGet BOARD_NODES nb).isSome = true := by
  decide

/-- Every node produced by the sliding loop is empty in the given occupancy
and is a board node. -/
theorem slideLoop_mem (pieces : Pieces) :
    ∀ (fuel : Nat) (prev curr x : NodeId), x ∈ slideLoop pieces fuel prev curr →
      recGet pieces x = none ∧ (recGet BOARD_NODES x).isSome = true := by
  intro fuel
  induction fuel with
  | zero => intro prev curr x hx; simp [slideLoop] at hx
  | succ fuel ih =>
      intro prev curr x hx
      rw [slideLoop] at hx
      rcases hcurr : recGet BOARD_NODES curr with _ | currNode
      · simp only [hcurr] at hx
        simp at hx
      · simp only [hcurr] at hx
        rcases hfind : currNode.neighbors.find?
            (fun nextId => nextId ≠ prev && areCollinear prev curr nextId) with _ | nxt
        · simp only [hfind] at hx
          simp at hx
        · simp only [hfind] at hx
          by_cases hempty : (recGet pieces nxt).isNone = true
          · rw [if_pos hempty] at hx
            rcases List.mem_cons.mp hx with rfl | hx
            · refine ⟨Option.isNone_iff_eq_none.mp hempty, ?_⟩
              exact boardClosed (curr, currNode) (recGet_mem hcurr) x
                (List.mem_of_find?_eq_some hfind)
            · exact ih curr nxt x hx
          · rw [if_neg hempty] at hx
            simp at hx

/-- Shape of every move returned by `getValidMoves`: its source is the
queried node (which holds a piece of the side to move), its destination is
empty and on the board, and its capture data comes from
`calculateRecursiveCaptures`. -/
theorem mem_getValidMoves {s : GameState} {f : NodeId} {mv : Move}
    (h : mv ∈ getValidMoves s f) :
    mv.«from» = f ∧
    (∃ pc, recGet s.pieces f = some pc ∧ pc.player = s.currentPlayer) ∧
    recGet s.pieces mv.«to» = none ∧
    (recGet BOARD_NODES mv.«to»).isSome = true ∧
    mv.captures = (calculateRecursiveCaptures s f mv.«to»).1 ∧
    mv.captureSteps = (calculateRecursiveCaptures s f mv.«to»).2 := by
  rw [getValidMoves] at h
  rcases hpc : recGet s.pieces f with _ | pc
  · simp only [hpc] at h
    simp at h
  · simp only [hpc] at h
    by_cases hpl : pc.player ≠ s.currentPlayer
    · rw [if_pos hpl] at h
      simp at h
    · rw [if_neg hpl] at h
      push_neg at hpl
      rcases hstart : recGet BOARD_NODES f with _ | startNode
      · simp only [hstart] at h
        simp at h
      · simp only [hstart] at h
        simp only [List.mem_map] at h
        obtain ⟨toId, hto, rfl⟩ := h
        simp only [List.mem_flatten, List.mem_map] at hto
        obtain ⟨l, ⟨nb, hnb, rfl⟩, htoin⟩ := hto
        have hdest : recGet s.pieces toId = none ∧
            (recGet BOARD_NODES toId).isSome = true := by
          by_cases hne : (recGet s.pieces nb).isNone = true
          · rw [if_pos hne] at htoin
            rcases List.mem_cons.mp htoin with rfl | htoin
            · exact ⟨Option.isNone_iff_eq_none.mp hne,
                boardClosed (f, startNode) (recGet_mem hstart) toId hnb⟩
            · exact slideLoop_mem s.pieces 10 f nb toId htoin
          · rw [if_neg hne] at htoin; simp at htoin
        exact ⟨rfl, ⟨pc, rfl, hpl⟩, hdest.1, hdest.2, rfl, rfl⟩

/-! ## Cascade invariants -/

theorem getOpponent_ne (p : Player) : getOpponent p ≠ p := by
  cases p <;> simp [getOpponent]

theorem pickStep_foldl_mem (pieces : Pieces) (c : NodeId) (opp : Player) :
    ∀ (pairs : List (NodeId × NodeId)) (acc : List (NodeId × NodeId) × List NodeId),
      (∀ x ∈ acc.2, ∃ q, recGet pieces x = some q ∧ q.player = opp) →
      ∀ x ∈ (pairs.foldl (pickStep pieces c opp) acc).2,
        ∃ q, recGet pieces x = some q ∧ q.player = opp := by
  intro pairs
  induction pairs with
  | nil => intro acc hacc x hx; exact hacc x hx
  | cons p rest ih =>
      intro acc hacc x hx
      rw [List.foldl_cons] at hx
      refine ih _ ?_ x hx
      intro y hy
      by_cases h1 : p.1 = p.2
      · simp only [pickStep, if_pos h1] at hy
        exact hacc y hy
      · simp only [pickStep, if_neg h1] at hy
        by_cases h2 : (if strLe p.1 p.2 then (p.1, p.2) else (p.2, p.1)) ∈ acc.1
        · rw [if_pos h2] at hy
          exact hacc y hy
        · rw [if_neg h2] at hy
          by_cases h3 : areCollinear p.1 c p.2 = true
          · rw [if_pos h3] at hy
            rcases hq1 : recGet pieces p.1 with _ | q1
            · simp only [hq1] at hy
              exact hacc y hy
            · simp only [hq1] at hy
              rcases hq2 : recGet pieces p.2 with _ | q2
              · simp only [hq2] at hy
                exact hacc y hy
              · simp only [hq2] at hy
                by_cases h4 : q1.player = opp ∧ q2.player = opp
                · rw [if_pos h4] at hy
                  rcases List.mem_append.mp hy with hy | hy
                  · exact hacc y hy
                  · rcases List.mem_cons.mp hy with rfl | hy
                    · exact ⟨q1, hq1, h4.1⟩
                    · rcases List.mem_cons.mp hy with rfl | hy
                      · exact ⟨q2, hq2, h4.2⟩
                      · simp at hy
                · rw [if_neg h4] at hy
                  exact hacc y hy
          · rw [if_neg h3] at hy
            exact hacc y hy

theorem checkPick_mem (pieces : Pieces) (c : NodeId) (me : Player) :
    ∀ x ∈ checkPick pieces c me,
      ∃ q, recGet pieces x = some q ∧ q.player = getOpponent me := by
  intro x hx
  rw [checkPick] at hx
  rcases hc : recGet BOARD_NODES c with _ | centerNode
  · simp only [hc] at hx
    simp at hx
  · simp only [hc] at hx
    exact pickStep_foldl_mem pieces c (getOpponent me) _ ([], []) (by simp) x hx

theorem clampInner_foldl_mem (pieces : Pieces) (c n1 : NodeId) (me : Player)
    (hq1 : ∃ q, recGet pieces n1 = some q ∧ q.player = getOpponent me) :
    ∀ (l : List NodeId) (acc : List NodeId),
      (∀ x ∈ acc, ∃ q, recGet pieces x = some q ∧ q.player = getOpponent me) →
      ∀ x ∈ l.foldl (fun result n2 =>
          if n2 = c then result
          else if areCollinear c n1 n2 then
            match recGet pieces n2 with
            | some q2 => if q2.player = me then result ++ [n1] else result
            | none => result
          else result) acc,
        ∃ q, recGet pieces x = some q ∧ q.player = getOpponent me := by
  intro l
  induction l with
  | nil => intro acc hacc x hx; exact hacc x hx
  | cons n2 rest ih =>
      intro acc hacc x hx
      rw [List.foldl_cons] at hx
      refine ih _ ?_ x hx
      intro y hy
      by_cases h1 : n2 = c
      · rw [if_pos h1] at hy
        exact hacc y hy
      · rw [if_neg h1] at hy
        by_cases h2 : areCollinear c n1 n2 = true
        · rw [if_pos h2] at hy
          rcases hq2 : recGet pieces n2 with _ | q2
          · simp only [hq2] at hy
            exact hacc y hy
          · simp only [hq2] at hy
            by_cases h3 : q2.player = me
            · rw [if_pos h3] at hy
              rcases List.mem_append.mp hy with hy | hy
              · exact hacc y hy
              · rcases List.mem_cons.mp hy with rfl | hy
                · exact hq1
                · simp at hy
            · rw [if_neg h3] at hy
              exact hacc y hy
        · rw [if_neg h2] at hy
          exact hacc y hy

theorem checkClamp_mem (pieces : Pieces) (c : NodeId) (me : Player) :
    ∀ x ∈ checkClamp pieces c me,
      ∃ q, recGet pieces x = some q ∧ q.player = getOpponent me := by
  intro x hx
  rw [checkClamp] at hx
  rcases hc : recGet BOARD_NODES c with _ | centerNode
  · simp only [hc] at hx
    simp at hx
  · simp only [hc] at hx
    revert hx
    suffices h : ∀ (l : List NodeId) (acc : List NodeId),
        (∀ y ∈ acc, ∃ q, recGet pieces y = some q ∧ q.player = getOpponent me) →
        ∀ y ∈ l.foldl (fun result n1 =>
            match recGet pieces n1 with
            | some q1 =>
                if q1.player = getOpponent me then
                  match recGet BOARD_NODES n1 with
                  | some n1Node =>
                      n1Node.neighbors.foldl (fun result n2 =>
                        if n2 = c then result
                        else if areCollinear c n1 n2 then
                          match recGet pieces n2 with
                          | some q2 => if q2.player = me then result ++ [n1] else result
                          | none => result
                        else result) result
                  | none => result
                else result
            | none => result) acc,
          ∃ q, recGet pieces y = some q ∧ q.player = getOpponent me by
      intro hx
      exact h centerNode.neighbors [] (by simp) x hx
    intro l
    induction l with
    | nil => intro acc hacc y hy; exact hacc y hy
    | cons n1 rest ih =>
        intro acc hacc y hy
        rw [List.foldl_cons] at hy
        refine ih _ ?_ y hy
        intro z hz
        rcases hq1 : recGet pieces n1 with _ | q1
        · simp only [hq1] at hz
          exact hacc z hz
        · simp only [hq1] at hz
          by_cases hp1 : q1.player = getOpponent me
          · rw [if_pos hp1] at hz
            rcases hb1 : recGet BOARD_NODES n1 with _ | n1Node
            · simp only [hb1] at hz
              exact hacc z hz
            · simp only [hb1] at hz
              exact clampInner_foldl_mem pieces c n1 me ⟨q1, hq1, hp1⟩
                n1Node.neighbors acc hacc z hz
          · rw [if_neg hp1] at hz
            exact hacc z hz

theorem centerFlips_mem (pieces : Pieces) (c : NodeId) (me : Player) :
    ∀ x ∈ centerFlips pieces c me,
      ∃ q, recGet pieces x = some q ∧ q.player = getOpponent me := by
  intro x hx
  rw [centerFlips] at hx
  by_cases h : (checkPick pieces c me).length > 0
  · rw [if_pos h] at hx
    exact checkPick_mem pieces c me x hx
  · rw [if_neg h] at hx
    exact checkClamp_mem pieces c me x hx

theorem applyFlip_inv {me : Player} {f t : NodeId} {total₀ : List NodeId}
    {st : PassState} {fid : NodeId}
    (hinv : PassInv me f t total₀ st) (hf : fid ≠ f) (ht : fid ≠ t) :
    PassInv me f t total₀ (applyFlip me st fid) := by
  obtain ⟨h1, h2, h3, h4, h5, h6⟩ := hinv
  rw [applyFlip]
  by_cases hmem : fid ∈ st.totalCaptures
  · rw [if_pos hmem]
    exact ⟨h1, h2, h3, h4, h5, h6⟩
  · rw [if_neg hmem]
    have h1' : st.totalCaptures ++ [fid] = total₀ ++ (st.currentStepFlips ++ [fid]) := by
      rw [h1, List.append_assoc]
    have h2' : (st.totalCaptures ++ [fid]).Nodup := by
      simp [List.nodup_append, h2, hmem]
    have h5' : f ∉ st.totalCaptures ++ [fid] := by
      simp [h5, Ne.symm hf]
    have h6' : t ∉ st.totalCaptures ++ [fid] := by
      simp [h6, Ne.symm ht]
    rcases hq : recGet st.pieces fid with _ | q
    · simp only [hq]
      exact ⟨h1', h2', h3, h4, h5', h6'⟩
    · simp only [hq]
      refine ⟨h1', h2', ?_, ?_, h5', h6'⟩
      · rw [recGet_recSet_other _ _ _ _ hf]
        exact h3
      · obtain ⟨q', hq', hq'p⟩ := h4
        exact ⟨q', by rw [recGet_recSet_other _ _ _ _ ht]; exact hq', hq'p⟩

theorem applyFlip_foldl_inv {me : Player} {f t : NodeId} {total₀ : List NodeId} :
    ∀ (flips : List NodeId) (st : PassState),
      PassInv me f t total₀ st →
      (∀ x ∈ flips, x ≠ f ∧ x ≠ t) →
      PassInv me f t total₀ (flips.foldl (applyFlip me) st) := by
  intro flips
  induction flips with
  | nil => intro st hinv _; exact hinv
  | cons fid rest ih =>
      intro st hinv hfl
      rw [List.foldl_cons]
      refine ih _ (applyFlip_inv hinv ?_ ?_) ?_
      · exact (hfl fid (List.mem_cons_self _ _)).1
      · exact (hfl fid (List.mem_cons_self _ _)).2
      · intro x hx
        exact hfl x (List.mem_cons_of_mem _ hx)

theorem processCenter_inv {me : Player} {f t : NodeId} {total₀ : List NodeId}
    (pr : List NodeId) {st : PassState} (c : NodeId)
    (hinv : PassInv me f t total₀ st) :
    PassInv me f t total₀ (processCenter me (pr, st) c).2 := by
  rw [processCenter]
  by_cases hc : c ∈ pr
  · rw [if_pos hc]
    exact hinv
  · rw [if_neg hc]
    refine applyFlip_foldl_inv _ st hinv ?_
    intro x hx
    obtain ⟨q, hq, hqp⟩ := centerFlips_mem st.pieces c me x hx
    obtain ⟨_, _, h3, ⟨qt, hqt, hqtp⟩, _, _⟩ := hinv
    constructor
    · intro hxf
      rw [hxf, h3] at hq
      cases hq
    · intro hxt
      rw [hxt, hqt] at hq
      obtain rfl : qt = q := by injection hq
      rw [hqtp] at hqp
      exact getOpponent_ne me hqp.symm

theorem processCenter_foldl_inv {me : Player} {f t : NodeId} {total₀ : List NodeId} :
    ∀ (centers : List NodeId) (pr : List NodeId) (st : PassState),
      PassInv me f t total₀ st →
      PassInv me f t total₀ (centers.foldl (processCenter me) (pr, st)).2 := by
  intro centers
  induction centers with
  | nil => intro pr st hinv; exact hinv
  | cons c rest ih =>
      intro pr st hinv
      rw [List.foldl_cons]
      have hnext := processCenter_inv pr c hinv
      have : processCenter me (pr, st) c =
          ((processCenter me (pr, st) c).1, (processCenter me (pr, st) c).2) := rfl
      rw [this]
      exact ih _ _ hnext

theorem cascadeLoop_inv (me : Player) (f t : NodeId) :
    ∀ (fuel : Nat) (active processed : List NodeId) (pieces : Pieces)
      (total : List NodeId) (steps : List (List NodeId)),
      steps.flatten = total → total.Nodup →
      recGet pieces f = none →
      (∃ q, recGet pieces t = some q ∧ q.player = me) →
      f ∉ total → t ∉ total →
      (cascadeLoop me fuel active processed pieces total steps).2.flatten =
        (cascadeLoop me fuel active processed pieces total steps).1 ∧
      (cascadeLoop me fuel active processed pieces total steps).1.Nodup ∧
      f ∉ (cascadeLoop me fuel active processed pieces total steps).1 ∧
      t ∉ (cascadeLoop me fuel active processed pieces total steps).1 := by
  intro fuel
  induction fuel with
  | zero =>
      intro active processed pieces total steps h1 h2 h3 h4 h5 h6
      exact ⟨h1, h2, h5, h6⟩
  | succ fuel ih =>
      intro active processed pieces total steps h1 h2 h3 h4 h5 h6
      cases active with
      | nil => exact ⟨h1, h2, h5, h6⟩
      | cons a rest =>
          have hstart : PassInv me f t total
              { pieces := pieces, totalCaptures := total,
                currentStepFlips := [], nextBatch := [] } :=
            ⟨by simp, h2, h3, h4, h5, h6⟩
          have hpass := processCenter_foldl_inv (a :: rest) processed _ hstart
          obtain ⟨hs1, hs2, hs3, hs4, hs5, hs6⟩ := hpass
          have hred : cascadeLoop me (fuel + 1) (a :: rest) processed pieces total steps =
              cascadeLoop me fuel
                ((a :: rest).foldl (processCenter me) (processed,
                  { pieces := pieces, totalCaptures := total,
                    currentStepFlips := [], nextBatch := [] })).2.nextBatch
                ((a :: rest).foldl (processCenter me) (processed,
                  { pieces := pieces, totalCaptures := total,
                    currentStepFlips := [], nextBatch := [] })).1
                ((a :: rest).foldl (processCenter me) (processed,
                  { pieces := pieces, totalCaptures := total,
                    currentStepFlips := [], nextBatch := [] })).2.pieces
                ((a :: rest).foldl (processCenter me) (processed,
                  { pieces := pieces, totalCaptures := total,
                    currentStepFlips := [], nextBatch := [] })).2.totalCaptures
                (if 0 < ((a :: rest).foldl (processCenter me) (processed,
                    { pieces := pieces, totalCaptures := total,
                      currentStepFlips := [], nextBatch := [] })).2.currentStepFlips.length
                 then steps ++ [((a :: rest).foldl (processCenter me) (processed,
                    { pieces := pieces, totalCaptures := total,
                      currentStepFlips := [], nextBatch := [] })).2.currentStepFlips]
                 else steps) := rfl
          rw [hred]
          apply ih
          · by_cases hcf : 0 < ((a :: rest).foldl (processCenter me) (processed,
                { pieces := pieces, totalCaptures := total,
                  currentStepFlips := [], nextBatch := [] })).2.currentStepFlips.length
            · rw [if_pos hcf, List.flatten_append, h1, hs1]
              simp
            · rw [if_neg hcf, h1, hs1]
              have : ((a :: rest).foldl (processCenter me) (processed,
                  { pieces := pieces, totalCaptures := total,
                    currentStepFlips := [], nextBatch := [] })).2.currentStepFlips = [] := by
                rcases hl : ((a :: rest).foldl (processCenter me) (processed,
                    { pieces := pieces, totalCaptures := total,
                      currentStepFlips := [], nextBatch := [] })).2.currentStepFlips with _ | ⟨x, xs⟩
                · rfl
                · rw [hl] at hcf
                  simp at hcf
              rw [this]
              simp
          · exact hs2
          · exact hs3
          · exact hs4
          · exact hs5
          · exact hs6

/-- Invariants of the full capture computation for a move of the side to
move to an empty destination: groups concatenate to the capture set, no node
is captured twice, and neither the source nor the destination is captured. -/
theorem calculateRecursiveCaptures_inv (s : GameState) (f t : NodeId)
    (hnd : (s.pieces.map Prod.fst).Nodup)
    (hf : ∃ pc, recGet s.pieces f = some pc ∧ pc.player = s.currentPlayer)
    (ht : recGet s.pieces t = none) :
    (calculateRecursiveCaptures s f t).2.flatten = (calculateRecursiveCaptures s f t).1 ∧
    (calculateRecursiveCaptures s f t).1.Nodup ∧
    f ∉ (calculateRecursiveCaptures s f t).1 ∧
    t ∉ (calculateRecursiveCaptures s f t).1 := by
  obtain ⟨pc, hpc, hpl⟩ := hf
  have htf : t ≠ f := by
    intro h
    rw [h, hpc] at ht
    cases ht
  have hred : calculateRecursiveCaptures s f t =
      cascadeLoop s.currentPlayer ((recSet (recDelete s.pieces f) t pc).length + 1)
        [t] [] (recSet (recDelete s.pieces f) t pc) [] [] := by
    rw [calculateRecursiveCaptures, hpc]
  rw [hred]
  apply cascadeLoop_inv
  · rfl
  · exact List.nodup_nil
  · rw [recGet_recSet_other _ _ _ _ htf]
    exact recGet_recDelete_self s.pieces f hnd
  · exact ⟨pc, recGet_recSet_self _ _ _, hpl⟩
  · simp
  · simp

/-! ## C1: well-formedness of a move's capture groups -/

/-- C1: for every move returned by `getValidMoves`, the capture groups are
pairwise disjoint, their concatenation (the move's total capture set) lists
each captured node at most once, and no group contains the move's source or
destination node. -/
theorem C1_capture_groups_wellformed (s : GameState) (f : NodeId) (mv : Move)
    (hnd : (s.pieces.map Prod.fst).Nodup) (h : mv ∈ getValidMoves s f) :
    mv.captureSteps.Pairwise List.Disjoint ∧
    mv.captureSteps.flatten.Nodup ∧
    ∀ g ∈ mv.captureSteps, mv.«from» ∉ g ∧ mv.«to» ∉ g := by
  obtain ⟨hfrom, hf, ht, _, hcap, hsteps⟩ := mem_getValidMoves h
  have hinv := calculateRecursiveCaptures_inv s f mv.«to» hnd hf ht
  have hflat : mv.captureSteps.flatten = mv.captures := by
    rw [hsteps, hcap, hinv.1]
  have hnodup : mv.captureSteps.flatten.Nodup := by
    rw [hflat, hcap]
    exact hinv.2.1
  refine ⟨(List.nodup_flatten.mp hnodup).2, hnodup, ?_⟩
  intro g hg
  constructor
  · intro hmem
    have hx : mv.«from» ∈ mv.captureSteps.flatten := List.mem_flatten.mpr ⟨g, hg, hmem⟩
    rw [hflat, hcap, hfrom] at hx
    exact hinv.2.2.1 hx
  · intro hmem
    have hx : mv.«to» ∈ mv.captureSteps.flatten := List.mem_flatten.mpr ⟨g, hg, hmem⟩
    rw [hflat, hcap] at hx
    exact hinv.2.2.2 hx

/-- C1 witness: the clamp-capture move of the tie position has one capture
group; all three invariants are instantiated on it. -/
theorem C1_capture_groups_wellformed_witness :
    mvClamp ∈ getValidMoves exTie "m_right" ∧
    (mvClamp.captureSteps.Pairwise List.Disjoint ∧
     mvClamp.captureSteps.flatten.Nodup ∧
     ∀ g ∈ mvClamp.captureSteps, mvClamp.«from» ∉ g ∧ mvClamp.«to» ∉ g) :=
  ⟨by decide,
   C1_capture_groups_wellformed exTie "m_right" mvClamp (by decide) (by decide)⟩

/-! ## C6: moves preserve the total piece count -/

theorem recDelete_length_of_mem {α : Type} {l : List (NodeId × α)} {k : NodeId} {v : α}
    (h : recGet l k = some v) : (recDelete l k).length + 1 = l.length := by
  induction l with
  | nil => simp [recGet] at h
  | cons e rest ih =>
      by_cases he : e.1 = k
      · rw [recDelete, if_pos he, List.length_cons]
      · rw [recGet, if_neg he] at h
        rw [recDelete, if_neg he, List.length_cons, List.length_cons, ih h]

theorem recSet_length_of_mem {α : Type} {l : List (NodeId × α)} {k : NodeId} (v : α)
    (h : k ∈ l.map Prod.fst) : (recSet l k v).length = l.length := by
  have hkeys := recSet_keys_of_mem l k v h
  have := congrArg List.length hkeys
  simpa using this

theorem applyCaptures_length (pl : Player) :
    ∀ (caps : List NodeId) (ps : Pieces), (applyCaptures pl ps caps).length = ps.length := by
  intro caps
  induction caps with
  | nil => intro ps; rfl
  | cons c rest ih =>
      intro ps
      rw [applyCaptures, List.foldl_cons]
      rcases hc : recGet ps c with _ | q
      · simp only [hc]
        exact ih ps
      · simp only [hc]
        rw [show (rest.foldl _ _ : Pieces) = applyCaptures pl (recSet ps c { q with player := pl }) rest from rfl,
          ih, recSet_length_of_mem]
        rw [← recGet_isSome_iff, hc]
        rfl

theorem count_black_add_white (ps : Pieces) :
    piecesCount ps .black + piecesCount ps .white = ps.length := by
  induction ps with
  | nil => rfl
  | cons e rest ih =>
      rcases he : e.2.player <;>
        simp only [piecesCount, List.filter_cons, he] at ih ⊢ <;>
        simp only [decide_eq_true_eq] at * <;>
        split_ifs with h1 h2 <;> simp_all <;> omega

/-- C6: applying any generated move preserves the total number of pieces on
the board summed over both sides — captures flip ownership in place, the
mover is relocated, and nothing is created or removed. -/
theorem C6_piece_count_preserved (s : GameState) (f : NodeId) (mv : Move)
    (h : mv ∈ getValidMoves s f) :
    piecesCount (simulateMove s mv).pieces .black +
      piecesCount (simulateMove s mv).pieces .white =
    piecesCount s.pieces .black + piecesCount s.pieces .white := by
  obtain ⟨hfrom, ⟨pc, hpc, _⟩, ht, _, _, _⟩ := mem_getValidMoves h
  rw [count_black_add_white, count_black_add_white]
  have hps : (simulateMove s mv).pieces =
      applyCaptures s.currentPlayer (movePiece s.pieces mv.«from» mv.«to») mv.captures := rfl
  rw [hps, applyCaptures_length]
  have hpc' : recGet s.pieces mv.«from» = some pc := by rw [hfrom]; exact hpc
  have hmp : movePiece s.pieces mv.«from» mv.«to» =
      recSet (recDelete s.pieces mv.«from») mv.«to» pc := by
    rw [movePiece, hpc']
  rw [hmp]
  have hne : mv.«to» ≠ mv.«from» := by
    intro hh
    rw [hh, hpc'] at ht
    cases ht
  have hto : recGet (recDelete s.pieces mv.«from») mv.«to» = none := by
    rw [recGet_recDelete_other _ _ _ (Ne.symm hne)]
    exact ht
  rw [recGet_eq_none_iff] at hto
  rw [recSet_keys_of_not_mem _ _ _ hto]
  have hdel := recDelete_length_of_mem hpc'
  simp only [List.length_append, List.length_cons, List.length_nil]
  omega

/-- C6 witness: a quiet move in the two-piece position keeps the summed
piece count at two. -/
theorem C6_piece_count_preserved_witness :
    mvQuiet ∈ getValidMoves exPair "0,0" ∧
    piecesCount (simulateMove exPair mvQuiet).pieces .black +
      piecesCount (simulateMove exPair mvQuiet).pieces .white =
    piecesCount exPair.pieces .black + piecesCount exPair.pieces .white :=
  ⟨by decide, C6_piece_count_preserved exPair "0,0" mvQuiet (by decide)⟩

/-! ## C7: sequential group application equals atomic application -/

/-- C7: for every generated move, folding the capture groups one at a time
(each group flipping its nodes to the mover's side, as the animation layer
does) produces the same occupancy as flipping the move's whole capture set
atomically in one pass (as `simulateMove` does) — from any starting
occupancy. -/
theorem C7_sequential_equals_atomic (s : GameState) (f : NodeId) (mv : Move) (ps₀ : Pieces)
    (hnd : (s.pieces.map Prod.fst).Nodup) (h : mv ∈ getValidMoves s f) :
    mv.captureSteps.foldl (applyCaptures s.currentPlayer) ps₀ =
    applyCaptures s.currentPlayer ps₀ mv.captures := by
  obtain ⟨_, hf, ht, _, hcap, hsteps⟩ := mem_getValidMoves h
  have hflat : mv.captureSteps.flatten = mv.captures := by
    rw [hsteps, hcap]
    exact (calculateRecursiveCaptures_inv s f mv.«to» hnd hf ht).1
  rw [← hflat]
  induction mv.captureSteps generalizing ps₀ with
  | nil => rfl
  | cons g rest ih =>
      rw [List.foldl_cons, List.flatten_cons]
      rw [show applyCaptures s.currentPlayer ps₀ (g ++ rest.flatten) =
        (g ++ rest.flatten).foldl _ ps₀ from rfl, List.foldl_append]
      exact ih _

/-- C7 witness: the one-group clamp move of the tie position applied from
the post-relocation occupancy. -/
theorem C7_sequential_equals_atomic_witness :
    mvClamp ∈ getValidMoves exTie "m_right" ∧
    mvClamp.captureSteps.foldl (applyCaptures exTie.currentPlayer)
        (movePiece exTie.pieces "m_right" "m_top") =
      applyCaptures exTie.currentPlayer (movePiece exTie.pieces "m_right" "m_top")
        mvClamp.captures :=
  ⟨by decide,
   C7_sequential_equals_atomic exTie "m_right" mvClamp
     (movePiece exTie.pieces "m_right" "m_top") (by decide) (by decide)⟩

/-! ## C8: destinations are empty and slide-reachable -/

theorem slideLoop_reach (s : GameState) (f : NodeId) :
    ∀ (fuel : Nat) (prev curr : NodeId), SlideReach s f prev curr →
      ∀ x ∈ slideLoop s.pieces fuel prev curr, ∃ p, SlideReach s f p x := by
  intro fuel
  induction fuel with
  | zero => intro prev curr _ x hx; simp [slideLoop] at hx
  | succ fuel ih =>
      intro prev curr hreach x hx
      rw [slideLoop] at hx
      rcases hcurr : recGet BOARD_NODES curr with _ | currNode
      · simp only [hcurr] at hx
        simp at hx
      · simp only [hcurr] at hx
        rcases hfind : currNode.neighbors.find?
            (fun nextId => nextId ≠ prev && areCollinear prev curr nextId) with _ | nxt
        · simp only [hfind] at hx
          simp at hx
        · simp only [hfind] at hx
          by_cases hempty : (recGet s.pieces nxt).isNone = true
          · rw [if_pos hempty] at hx
            have hpred := List.find?_some hfind
            rw [Bool.and_eq_true, decide_eq_true_eq] at hpred
            have hstep : SlideReach s f curr nxt :=
              SlideReach.step prev curr nxt currNode hreach hcurr
                (List.mem_of_find?_eq_some hfind) hpred.1 hpred.2
                (Option.isNone_iff_eq_none.mp hempty)
            rcases List.mem_cons.mp hx with rfl | hx
            · exact ⟨curr, hstep⟩
            · exact ih curr nxt hstep x hx
          · rw [if_neg hempty] at hx
            simp at hx

/-- C8: every move returned by `getValidMoves` goes to a destination that is
unoccupied in the given position and reachable from the source as a direct
empty neighbor or by a colinear slide through empty nodes only. -/
theorem C8_destinations_empty_and_reachable (s : GameState) (f : NodeId) (mv : Move)
    (h : mv ∈ getValidMoves s f) :
    recGet s.pieces mv.«to» = none ∧ ∃ p, SlideReach s f p mv.«to» := by
  refine ⟨(mem_getValidMoves h).2.2.1, ?_⟩
  rw [getValidMoves] at h
  rcases hpc : recGet s.pieces f with _ | pc
  · simp only [hpc] at h
    simp at h
  · simp only [hpc] at h
    by_cases hpl : pc.player ≠ s.currentPlayer
    · rw [if_pos hpl] at h
      simp at h
    · rw [if_neg hpl] at h
      rcases hstart : recGet BOARD_NODES f with _ | startNode
      · simp only [hstart] at h
        simp at h
      · simp only [hstart] at h
        simp only [List.mem_map] at h
        obtain ⟨toId, hto, rfl⟩ := h
        simp only [List.mem_flatten, List.mem_map] at hto
        obtain ⟨l, ⟨nb, hnb, rfl⟩, htoin⟩ := hto
        by_cases hne : (recGet s.pieces nb).isNone = true
        · rw [if_pos hne] at htoin
          have hbase : SlideReach s f f nb :=
            SlideReach.base startNode nb hstart hnb (Option.isNone_iff_eq_none.mp hne)
          rcases List.mem_cons.mp htoin with rfl | htoin
          · exact ⟨f, hbase⟩
          · exact slideLoop_reach s f 10 f nb hbase toId htoin
        · rw [if_neg hne] at htoin
          simp at htoin

/-- C8 witness: the slide destination (0,2) of the two-piece position is
empty and reachable. -/
theorem C8_destinations_empty_and_reachable_witness :
    mvSlide ∈ getValidMoves exPair "0,0" ∧
    recGet exPair.pieces mvSlide.«to» = none ∧
    ∃ p, SlideReach exPair "0,0" p mvSlide.«to» :=
  ⟨by decide, C8_destinations_empty_and_reachable exPair "0,0" mvSlide (by decide)⟩

/-! ## Fold lemmas for running maxima and minima -/

theorem foldl_max_pull : ∀ (l : List Int) (a b : Int),
    l.foldl max (max a b) = max b (l.foldl max a) := by
  intro l
  induction l with
  | nil => intro a b; exact max_comm a b
  | cons x xs ih =>
      intro a b
      have hc : max (max a b) x = max (max a x) b := by
        rw [max_assoc, max_comm b x, ← max_assoc]
      rw [List.foldl_cons, hc, ih (max a x) b, List.foldl_cons]

theorem le_foldl_max : ∀ (l : List Int) (a : Int), a ≤ l.foldl max a := by
  intro l
  induction l with
  | nil => intro a; exact le_refl a
  | cons x xs ih =>
      intro a
      rw [List.foldl_cons]
      exact le_trans (le_max_left a x) (ih (max a x))

theorem mem_le_foldl_max : ∀ (l : List Int) (a x : Int), x ∈ l → x ≤ l.foldl max a := by
  intro l
  induction l with
  | nil => intro a x hx; cases hx
  | cons y ys ih =>
      intro a x hx
      rw [List.foldl_cons]
      rcases List.mem_cons.mp hx with rfl | hx
      · exact le_trans (le_max_right a x) (le_foldl_max ys (max a x))
      · exact ih (max a y) x hx

theorem foldl_max_le : ∀ (l : List Int) (a B : Int), a ≤ B → (∀ x ∈ l, x ≤ B) →
    l.foldl max a ≤ B := by
  intro l
  induction l with
  | nil => intro a B ha _; exact ha
  | cons x xs ih =>
      intro a B ha hl
      rw [List.foldl_cons]
      exact ih (max a x) B (max_le ha (hl x (List.mem_cons_self _ _)))
        (fun y hy => hl y (List.mem_cons_of_mem _ hy))

theorem foldl_max_eq_init_or_mem : ∀ (l : List Int) (a : Int),
    l.foldl max a = a ∨ ∃ x ∈ l, l.foldl max a = x := by
  intro l
  induction l with
  | nil => intro a; exact Or.inl rfl
  | cons y ys ih =>
      intro a
      rw [List.foldl_cons]
      rcases ih (max a y) with h | ⟨x, hx, h⟩
      · rcases max_choice a y with hm | hm
        · exact Or.inl (by rw [h, hm])
        · exact Or.inr ⟨y, List.mem_cons_self _ _, by rw [h, hm]⟩
      · exact Or.inr ⟨x, List.mem_cons_of_mem _ hx, h⟩

theorem foldl_min_pull : ∀ (l : List Int) (a b : Int),
    l.foldl min (min a b) = min b (l.foldl min a) := by
  intro l
  induction l with
  | nil => intro a b; exact min_comm a b
  | cons x xs ih =>
      intro a b
      have hc : min (min a b) x = min (min a x) b := by
        rw [min_assoc, min_comm b x, ← min_assoc]
      rw [List.foldl_cons, hc, ih (min a x) b, List.foldl_cons]

theorem foldl_min_le_init : ∀ (l : List Int) (a : Int), l.foldl min a ≤ a := by
  intro l
  induction l with
  | nil => intro a; exact le_refl a
  | cons x xs ih =>
      intro a
      rw [List.foldl_cons]
      exact le_trans (ih (min a x)) (min_le_left a x)

theorem foldl_min_le_mem : ∀ (l : List Int) (a x : Int), x ∈ l → l.foldl min a ≤ x := by
  intro l
  induction l with
  | nil => intro a x hx; cases hx
  | cons y ys ih =>
      intro a x hx
      rw [List.foldl_cons]
      rcases List.mem_cons.mp hx with rfl | hx
      · exact le_trans (foldl_min_le_init ys (min a x)) (min_le_right a x)
      · exact ih (min a y) x hx

theorem le_foldl_min : ∀ (l : List Int) (a B : Int), B ≤ a → (∀ x ∈ l, B ≤ x) →
    B ≤ l.foldl min a := by
  intro l
  induction l with
  | nil => intro a B ha _; exact ha
  | cons x xs ih =>
      intro a B ha hl
      rw [List.foldl_cons]
      exact ih (min a x) B (le_min ha (hl x (List.mem_cons_self _ _)))
        (fun y hy => hl y (List.mem_cons_of_mem _ hy))

theorem foldl_min_eq_init_or_mem : ∀ (l : List Int) (a : Int),
    l.foldl min a = a ∨ ∃ x ∈ l, l.foldl min a = x := by
  intro l
  induction l with
  | nil => intro a; exact Or.inl rfl
  | cons y ys ih =>
      intro a
      rw [List.foldl_cons]
      rcases ih (min a y) with h | ⟨x, hx, h⟩
      · rcases min_choice a y with hm | hm
        · exact Or.inl (by rw [h, hm])
        · exact Or.inr ⟨y, List.mem_cons_self _ _, by rw [h, hm]⟩
      · exact Or.inr ⟨x, List.mem_cons_of_mem _ hx, h⟩

/-! ## Fail-soft correctness of the pruned search loops -/

theorem le_abMax (f : GameState → Int → Int → Int) (s : GameState) :
    ∀ (ms : List Move) (m α β : Int), m ≤ abMax f s ms m α β := by
  intro ms
  induction ms with
  | nil => intro m α β; exact le_refl m
  | cons mv rest ih =>
      intro m α β
      have hred : abMax f s (mv :: rest) m α β =
          (if β ≤ max α (f (simulateMove s mv) α β)
           then max m (f (simulateMove s mv) α β)
           else abMax f s rest (max m (f (simulateMove s mv) α β))
             (max α (f (simulateMove s mv) α β)) β) := rfl
      rw [hred]
      split_ifs
      · exact le_max_left _ _
      · exact le_trans (le_max_left _ _) (ih _ _ _)

theorem abMin_le (f : GameState → Int → Int → Int) (s : GameState) :
    ∀ (ms : List Move) (m α β : Int), abMin f s ms m α β ≤ m := by
  intro ms
  induction ms with
  | nil => intro m α β; exact le_refl m
  | cons mv rest ih =>
      intro m α β
      have hred : abMin f s (mv :: rest) m α β =
          (if min β (f (simulateMove s mv) α β) ≤ α
           then min m (f (simulateMove s mv) α β)
           else abMin f s rest (min m (f (simulateMove s mv) α β)) α
             (min β (f (simulateMove s mv) α β))) := rfl
      rw [hred]
      split_ifs
      · exact min_le_left _ _
      · exact le_trans (ih _ _ _) (min_le_left _ _)

theorem abMax_spec (f : GameState → Int → Int → Int) (p : GameState → Int) (s : GameState) :
    ∀ (ms : List Move) (m α β : Int),
      (∀ mv ∈ ms, ∀ α₁ β₁ : Int, NEG_INF ≤ α₁ → α₁ < β₁ → β₁ ≤ INF →
        ABSpec (f (simulateMove s mv) α₁ β₁) (p (simulateMove s mv)) α₁ β₁) →
      m ≤ α → NEG_INF ≤ α → α < β → β ≤ INF →
      ABSpec (abMax f s ms m α β)
        ((ms.map (fun mv => p (simulateMove s mv))).foldl max m) α β := by
  intro ms
  induction ms with
  | nil =>
      intro m α β _ _ _ _ _
      exact ⟨fun _ => le_refl m, fun _ => le_refl m, fun _ _ => rfl⟩
  | cons mv rest ih =>
      intro m α β hf hm hα hαβ hβ
      obtain ⟨hS1, hS2, hS3⟩ := hf mv (List.mem_cons_self _ _) α β hα hαβ hβ
      have hred : abMax f s (mv :: rest) m α β =
          (if β ≤ max α (f (simulateMove s mv) α β)
           then max m (f (simulateMove s mv) α β)
           else abMax f s rest (max m (f (simulateMove s mv) α β))
             (max α (f (simulateMove s mv) α β)) β) := rfl
      set v := f (simulateMove s mv) α β with hv
      set pv := p (simulateMove s mv) with hpv
      set W := (rest.map (fun mv => p (simulateMove s mv))).foldl max m with hW
      have hVfold : ((mv :: rest).map (fun mv => p (simulateMove s mv))).foldl max m =
          max pv W := by
        rw [List.map_cons, List.foldl_cons, foldl_max_pull]
      rw [hred, hVfold]
      by_cases hcut : β ≤ max α v
      · rw [if_pos hcut]
        have hβv : β ≤ v := by
          rcases max_choice α v with h | h <;> rw [h] at hcut <;> omega
        have hvpv : v ≤ pv := hS2 hβv
        have hrv : max m v = v := max_eq_right (by omega)
        refine ⟨?_, ?_, ?_⟩
        · intro hle
          rw [hrv] at hle
          omega
        · intro _
          rw [hrv]
          exact le_trans hvpv (le_max_left pv W)
        · intro _ hlt
          rw [hrv] at hlt
          omega
      · rw [if_neg hcut]
        have hαv : max α v < β := by omega
        have hrest := ih (max m v) (max α v) β
          (fun mv' hmv' => hf mv' (List.mem_cons_of_mem _ hmv'))
          (max_le_max hm (le_refl v)) (le_trans hα (le_max_left α v)) hαv hβ
        have hV'fold : (rest.map (fun mv => p (simulateMove s mv))).foldl max (max m v) =
            max v W := by
          rw [foldl_max_pull]
        rw [hV'fold] at hrest
        have hge : max m v ≤ abMax f s rest (max m v) (max α v) β := le_abMax f s _ _ _ _
        by_cases hcase : v ≤ α
        · have hα' : max α v = α := max_eq_left hcase
          rw [hα'] at hrest hge ⊢
          obtain ⟨hI1, hI2, hI3⟩ := hrest
          have hpvv : pv ≤ v := hS1 hcase
          refine ⟨?_, ?_, ?_⟩
          · intro hle
            have hV' := hI1 hle
            calc max pv W ≤ max v W := max_le_max hpvv (le_refl W)
              _ ≤ _ := hV'
          · intro hβr
            have hrV' := hI2 hβr
            have hvr : v < abMax f s rest (max m v) α β := by omega
            have hWmax : max v W = W := by
              rcases max_choice v W with hc | hc
              · rw [hc] at hrV'
                omega
              · exact hc
            rw [hWmax] at hrV'
            exact le_trans hrV' (le_max_right pv W)
          · intro hαr hrβ
            have h3 := hI3 hαr hrβ
            have hvr : v < abMax f s rest (max m v) α β := by omega
            have hWmax : max v W = W := by
              rcases max_choice v W with hc | hc
              · rw [hc] at h3
                omega
              · exact hc
            rw [hWmax] at h3
            have hpvW : max pv W = W := max_eq_right (by omega)
            rw [hpvW]
            exact h3
        · push_neg at hcase
          have hα' : max α v = v := max_eq_right (by omega)
          rw [hα'] at hrest hge ⊢
          obtain ⟨hI1, hI2, hI3⟩ := hrest
          have hvβ : v < β := by omega
          have hpveq : v = pv := hS3 hcase hvβ
          have hvR : v ≤ abMax f s rest (max m v) v β :=
            le_trans (le_max_right m v) hge
          refine ⟨?_, ?_, ?_⟩
          · intro hle
            omega
          · intro hβr
            have h2 := hI2 hβr
            rw [← hpveq]
            exact h2
          · intro hαr hrβ
            rw [← hpveq]
            rcases lt_or_le v (abMax f s rest (max m v) v β) with hlt | hle
            · exact hI3 hlt hrβ
            · have hRv : abMax f s rest (max m v) v β = v := le_antisymm hle hvR
              have h1 := hI1 (le_of_eq hRv)
              have hvW : v ≤ max v W := le_max_left v W
              omega

theorem abMin_spec (f : GameState → Int → Int → Int) (p : GameState → Int) (s : GameState) :
    ∀ (ms : List Move) (m α β : Int),
      (∀ mv ∈ ms, ∀ α₁ β₁ : Int, NEG_INF ≤ α₁ → α₁ < β₁ → β₁ ≤ INF →
        ABSpec (f (simulateMove s mv) α₁ β₁) (p (simulateMove s mv)) α₁ β₁) →
      β ≤ m → NEG_INF ≤ α → α < β → β ≤ INF →
      ABSpec (abMin f s ms m α β)
        ((ms.map (fun mv => p (simulateMove s mv))).foldl min m) α β := by
  intro ms
  induction ms with
  | nil =>
      intro m α β _ _ _ _ _
      exact ⟨fun _ => le_refl m, fun _ => le_refl m, fun _ _ => rfl⟩
  | cons mv rest ih =>
      intro m α β hf hm hα hαβ hβ
      obtain ⟨hS1, hS2, hS3⟩ := hf mv (List.mem_cons_self _ _) α β hα hαβ hβ
      have hred : abMin f s (mv :: rest) m α β =
          (if min β (f (simulateMove s mv) α β) ≤ α
           then min m (f (simulateMove s mv) α β)
           else abMin f s rest (min m (f (simulateMove s mv) α β)) α
             (min β (f (simulateMove s mv) α β))) := rfl
      set v := f (simulateMove s mv) α β with hv
      set pv := p (simulateMove s mv) with hpv
      set W := (rest.map (fun mv => p (simulateMove s mv))).foldl min m with hW
      have hVfold : ((mv :: rest).map (fun mv => p (simulateMove s mv))).foldl min m =
          min pv W := by
        rw [List.map_cons, List.foldl_cons, foldl_min_pull]
      rw [hred, hVfold]
      by_cases hcut : min β v ≤ α
      · rw [if_pos hcut]
        have hvα : v ≤ α := by
          rcases min_choice β v with h | h <;> rw [h] at hcut <;> omega
        have hpvv : pv ≤ v := hS1 hvα
        have hrv : min m v = v := min_eq_right (by omega)
        refine ⟨?_, ?_, ?_⟩
        · intro _
          rw [hrv]
          exact le_trans (min_le_left pv W) hpvv
        · intro hge
          rw [hrv] at hge
          omega
        · intro hlt _
          rw [hrv] at hlt
          omega
      · rw [if_neg hcut]
        have hαv : α < min β v := by omega
        have hrest := ih (min m v) α (min β v)
          (fun mv' hmv' => hf mv' (List.mem_cons_of_mem _ hmv'))
          (min_le_min hm (le_refl v)) hα hαv (le_trans (min_le_left β v) hβ)
        have hV'fold : (rest.map (fun mv => p (simulateMove s mv))).foldl min (min m v) =
            min v W := by
          rw [foldl_min_pull]
        rw [hV'fold] at hrest
        have hge : abMin f s rest (min m v) α (min β v) ≤ min m v := abMin_le f s _ _ _ _
        by_cases hcase : β ≤ v
        · have hβ' : min β v = β := min_eq_left hcase
          rw [hβ'] at hrest hge ⊢
          obtain ⟨hI1, hI2, hI3⟩ := hrest
          have hvpv : v ≤ pv := hS2 hcase
          refine ⟨?_, ?_, ?_⟩
          · intro hle
            have h1 := hI1 hle
            have hrv : abMin f s rest (min m v) α β < v := by omega
            have hWmin : min v W = W := by
              rcases min_choice v W with hc | hc
              · rw [hc] at h1
                omega
              · exact hc
            rw [hWmin] at h1
            exact le_trans (min_le_right pv W) h1
          · intro hβr
            have h2 := hI2 hβr
            refine le_min ?_ (le_trans h2 (min_le_right v W))
            exact le_trans (le_trans h2 (min_le_left v W)) hvpv
          · intro hαr hrβ
            have h3 := hI3 hαr hrβ
            have hrv : abMin f s rest (min m v) α β < v := by omega
            have hWmin : min v W = W := by
              rcases min_choice v W with hc | hc
              · rw [hc] at h3
                omega
              · exact hc
            rw [hWmin] at h3
            have hpvW : min pv W = W := min_eq_right (by omega)
            rw [hpvW]
            exact h3
        · push_neg at hcase
          have hβ' : min β v = v := min_eq_right (by omega)
          rw [hβ'] at hrest hge ⊢
          obtain ⟨hI1, hI2, hI3⟩ := hrest
          have hαvlt : α < v := by omega
          have hpveq : v = pv := hS3 hαvlt hcase
          have hRv : abMin f s rest (min m v) α v ≤ v :=
            le_trans hge (min_le_right m v)
          refine ⟨?_, ?_, ?_⟩
          · intro hle
            have h1 := hI1 hle
            rw [← hpveq]
            exact h1
          · intro hβr
            omega
          · intro hαr hrβ
            rw [← hpveq]
            rcases lt_or_le (abMin f s rest (min m v) α v) v with hlt | hle
            · exact hI3 hαr hlt
            · have hRveq : abMin f s rest (min m v) α v = v := le_antisymm hRv hle
              have h2 := hI2 (le_of_eq hRveq.symm)
              have hvW : min v W ≤ v := min_le_left v W
              omega

/-! ## The pruned search refines plain minimax -/

theorem ABSpec_refl (r α β : Int) : ABSpec r r α β :=
  ⟨fun _ => le_refl r, fun _ => le_refl r, fun _ _ => rfl⟩

theorem minimax_succ (ai : Player) (d : Nat) (s : GameState) (isMax : Bool) (α β : Int) :
    minimax ai (d + 1) s isMax α β =
      if (checkWinCondition s).isSome then evaluate s ai
      else if (getAllMoves s (if isMax then ai else getOpponent ai)).length = 0 then
        evaluate s ai
      else if isMax then
        abMax (fun s₁ α₁ β₁ => minimax ai d s₁ false α₁ β₁) s
          (getAllMoves s (if isMax then ai else getOpponent ai)) NEG_INF α β
      else
        abMin (fun s₁ α₁ β₁ => minimax ai d s₁ true α₁ β₁) s
          (getAllMoves s (if isMax then ai else getOpponent ai)) INF α β := rfl

theorem plainMinimax_succ (ai : Player) (d : Nat) (s : GameState) (isMax : Bool) :
    plainMinimax ai (d + 1) s isMax =
      if (checkWinCondition s).isSome then evaluate s ai
      else if (getAllMoves s (if isMax then ai else getOpponent ai)).length = 0 then
        evaluate s ai
      else if isMax then
        (((getAllMoves s (if isMax then ai else getOpponent ai)).map
          (fun mv => plainMinimax ai d (simulateMove s mv) false)).foldl max NEG_INF)
      else
        (((getAllMoves s (if isMax then ai else getOpponent ai)).map
          (fun mv => plainMinimax ai d (simulateMove s mv) true)).foldl min INF) := rfl

/-- The pruned, fail-soft minimax of ai.ts refines the plain depth-limited
minimax value at every window: exact inside the window, a sound bound
outside it. -/
theorem minimax_ABSpec (ai : Player) :
    ∀ (d : Nat) (s : GameState) (isMax : Bool) (α β : Int),
      NEG_INF ≤ α → α < β → β ≤ INF →
      ABSpec (minimax ai d s isMax α β) (plainMinimax ai d s isMax) α β := by
  intro d
  induction d with
  | zero =>
      intro s isMax α β _ _ _
      exact ABSpec_refl _ α β
  | succ d ih =>
      intro s isMax α β hα hαβ hβ
      rw [minimax_succ, plainMinimax_succ]
      by_cases hwin : (checkWinCondition s).isSome = true
      · rw [if_pos hwin, if_pos hwin]
        exact ABSpec_refl _ α β
      · rw [if_neg hwin, if_neg hwin]
        by_cases hlen : (getAllMoves s (if isMax then ai else getOpponent ai)).length = 0
        · rw [if_pos hlen, if_pos hlen]
          exact ABSpec_refl _ α β
        · rw [if_neg hlen, if_neg hlen]
          cases isMax with
          | true =>
              rw [if_pos rfl, if_pos rfl]
              refine abMax_spec _ (fun s₁ => plainMinimax ai d s₁ false) s _ NEG_INF α β
                ?_ hα hα hαβ hβ
              intro mv _ α₁ β₁ hα₁ hαβ₁ hβ₁
              exact ih (simulateMove s mv) false α₁ β₁ hα₁ hαβ₁ hβ₁
          | false =>
              rw [if_neg (by simp), if_neg (by simp)]
              refine abMin_spec _ (fun s₁ => plainMinimax ai d s₁ true) s _ INF α β
                ?_ hβ hα hαβ hβ
              intro mv _ α₁ β₁ hα₁ hαβ₁ hβ₁
              exact ih (simulateMove s mv) true α₁ β₁ hα₁ hαβ₁ hβ₁

/-! ## Bounds on evaluations and plain minimax values -/

set_option linter.unnecessarySeqFocus false in
theorem evalStep_bound (ai : Player) (a : Int) (e : NodeId × Piece) :
    a - 600 ≤ evalStep ai a e ∧ evalStep ai a e ≤ a + 600 := by
  rw [evalStep]
  by_cases hp : e.2.player = ai
  · rw [if_pos hp]
    rcases recGet BOARD_NODES e.1 with _ | n
    · constructor <;> simp [PIECE_VALUE] <;> omega
    · by_cases hm : n.isMaoce = true <;>
        simp only [hm, if_true, if_false, Bool.false_eq_true] <;>
        constructor <;> simp [PIECE_VALUE, MAOCE_PENALTY] <;> omega
  · rw [if_neg hp]
    rcases recGet BOARD_NODES e.1 with _ | n
    · constructor <;> simp [PIECE_VALUE] <;> omega
    · by_cases hm : n.isMaoce = true <;>
        simp only [hm, if_true, if_false, Bool.false_eq_true] <;>
        constructor <;> simp [PIECE_VALUE, MAOCE_PENALTY] <;> omega

theorem foldl_evalStep_bound (ai : Player) :
    ∀ (l : Pieces) (a : Int),
      a - 600 * l.length ≤ l.foldl (evalStep ai) a ∧
      l.foldl (evalStep ai) a ≤ a + 600 * l.length := by
  intro l
  induction l with
  | nil => intro a; simp
  | cons e rest ih =>
      intro a
      rw [List.foldl_cons, List.length_cons]
      have hstep := evalStep_bound ai a e
      have hrest := ih (evalStep ai a e)
      push_cast
      push_cast at hrest
      constructor <;> omega

/-- The board has 29 nodes with pairwise distinct identifiers. -/
theorem boardKeys_card : (BOARD_NODES.map Prod.fst).length = 29 ∧
    (BOARD_NODES.map Prod.fst).Nodup := by
  refine ⟨by decide, by decide⟩

theorem length_le_of_WF (s : GameState) (hwf : WF s) : s.pieces.length ≤ 29 := by
  obtain ⟨hnd, hkeys⟩ := hwf
  have hsub : (s.pieces.map Prod.fst) ⊆ BOARD_NODES.map Prod.fst := by
    intro k hk
    have := hkeys k hk
    rw [recGet_isSome_iff] at this
    exact this
  have hsp : List.Subperm (s.pieces.map Prod.fst) (BOARD_NODES.map Prod.fst) :=
    List.subperm_of_subset hnd hsub
  have := hsp.length_le
  rw [List.length_map, List.length_map] at this
  have h29 : BOARD_NODES.length = 29 := by
    have := boardKeys_card.1
    rw [List.length_map] at this
    exact this
  omega

theorem evaluate_bound (s : GameState) (ai : Player) (hwf : WF s) :
    -17400 ≤ evaluate s ai ∧ evaluate s ai ≤ 17400 := by
  have hb := foldl_evalStep_bound ai s.pieces 0
  have hlen := length_le_of_WF s hwf
  have h29 : (s.pieces.length : Int) ≤ 29 := by exact_mod_cast hlen
  have h600 : (600 : Int) * s.pieces.length ≤ 17400 := by omega
  rcases hcw : checkWinCondition s with _ | w
  · simp only [evaluate, hcw, evaluatePieces]
    omega
  · simp only [evaluate, hcw]
    by_cases hw : w = ai <;> simp [hw, SCORES_WIN, SCORES_LOSS]

/-! ## Well-formedness is preserved along the search -/

theorem getAllMoves_mem {s : GameState} {p : Player} {mv : Move}
    (h : mv ∈ getAllMoves s p) : ∃ f, mv ∈ getValidMoves s f := by
  rw [getAllMoves] at h
  simp only [List.mem_flatten, List.mem_map] at h
  obtain ⟨l, ⟨e, _, rfl⟩, hmv⟩ := h
  by_cases hp : e.2.player = p
  · rw [if_pos hp] at hmv
    exact ⟨e.1, hmv⟩
  · rw [if_neg hp] at hmv
    cases hmv

theorem applyCaptures_keys (pl : Player) :
    ∀ (caps : List NodeId) (ps : Pieces),
      (applyCaptures pl ps caps).map Prod.fst = ps.map Prod.fst := by
  intro caps
  induction caps with
  | nil => intro ps; rfl
  | cons c rest ih =>
      intro ps
      rw [applyCaptures, List.foldl_cons]
      rcases hc : recGet ps c with _ | q
      · simp only [hc]
        exact ih ps
      · simp only [hc]
        rw [show (rest.foldl _ _ : Pieces) =
          applyCaptures pl (recSet ps c { q with player := pl }) rest from rfl, ih,
          recSet_keys_of_mem]
        rw [← recGet_isSome_iff, hc]
        rfl

theorem simulateMove_WF {s : GameState} {mv : Move} (hwf : WF s)
    (h : ∃ f, mv ∈ getValidMoves s f) : WF (simulateMove s mv) := by
  obtain ⟨f, hmem⟩ := h
  obtain ⟨hfrom, ⟨pc, hpc, _⟩, ht, htb, _, _⟩ := mem_getValidMoves hmem
  obtain ⟨hnd, hkeys⟩ := hwf
  have hpc' : recGet s.pieces mv.«from» = some pc := by rw [hfrom]; exact hpc
  have hps : (simulateMove s mv).pieces =
      applyCaptures s.currentPlayer (movePiece s.pieces mv.«from» mv.«to») mv.captures := rfl
  have hmp : movePiece s.pieces mv.«from» mv.«to» =
      recSet (recDelete s.pieces mv.«from») mv.«to» pc := by
    rw [movePiece, hpc']
  have hne : mv.«to» ≠ mv.«from» := by
    intro hh
    rw [hh, hpc'] at ht
    cases ht
  have hto : recGet (recDelete s.pieces mv.«from») mv.«to» = none := by
    rw [recGet_recDelete_other _ _ _ (Ne.symm hne)]
    exact ht
  have htomem := (recGet_eq_none_iff _ _).mp hto
  have hset : recSet (recDelete s.pieces mv.«from») mv.«to» pc =
      recDelete s.pieces mv.«from» ++ [(mv.«to», pc)] :=
    recSet_keys_of_not_mem _ _ _ htomem
  have hkeyseq : (simulateMove s mv).pieces.map Prod.fst =
      (recDelete s.pieces mv.«from»).map Prod.fst ++ [mv.«to»] := by
    rw [hps, applyCaptures_keys, hmp, hset, List.map_append]
    rfl
  constructor
  · rw [hkeyseq]
    have hsubnd : ((recDelete s.pieces mv.«from»).map Prod.fst).Nodup :=
      (recDelete_keys_sublist s.pieces mv.«from»).nodup hnd
    simp [List.nodup_append, hsubnd, htomem]
  · intro k hk
    rw [hkeyseq] at hk
    rcases List.mem_append.mp hk with hk | hk
    · have : k ∈ s.pieces.map Prod.fst :=
        (recDelete_keys_sublist s.pieces mv.«from»).subset hk
      exact hkeys k this
    · rcases List.mem_cons.mp hk with rfl | hk
      · exact htb
      · cases hk

theorem plainMinimax_bound (ai : Player) :
    ∀ (d : Nat) (s : GameState) (isMax : Bool), WF s →
      -17400 ≤ plainMinimax ai d s isMax ∧ plainMinimax ai d s isMax ≤ 17400 := by
  intro d
  induction d with
  | zero => intro s isMax hwf; exact evaluate_bound s ai hwf
  | succ d ih =>
      intro s isMax hwf
      rw [plainMinimax_succ]
      by_cases hwin : (checkWinCondition s).isSome = true
      · rw [if_pos hwin]
        exact evaluate_bound s ai hwf
      · rw [if_neg hwin]
        by_cases hlen : (getAllMoves s (if isMax then ai else getOpponent ai)).length = 0
        · rw [if_pos hlen]
          exact evaluate_bound s ai hwf
        · rw [if_neg hlen]
          revert hlen
          generalize (if isMax then ai else getOpponent ai) = pl
          intro hlen
          have hchild : ∀ mv ∈ getAllMoves s pl,
              ∀ b : Bool, -17400 ≤ plainMinimax ai d (simulateMove s mv) b ∧
                plainMinimax ai d (simulateMove s mv) b ≤ 17400 := by
            intro mv hmv b
            exact ih (simulateMove s mv) b (simulateMove_WF hwf (getAllMoves_mem hmv))
          have hne : getAllMoves s pl ≠ [] := by
            intro hnil
            rw [hnil] at hlen
            exact hlen rfl
          obtain ⟨mv₀, hmv₀⟩ := List.exists_mem_of_ne_nil _ hne
          cases isMax with
          | true =>
              rw [if_pos rfl]
              constructor
              · refine le_trans (hchild mv₀ hmv₀ false).1 ?_
                exact mem_le_foldl_max _ NEG_INF _ (List.mem_map_of_mem _ hmv₀)
              · refine foldl_max_le _ NEG_INF 17400 (by rw [NEG_INF]; omega) ?_
                intro x hx
                obtain ⟨mv, hmv, rfl⟩ := List.mem_map.mp hx
                exact (hchild mv hmv false).2
          | false =>
              rw [if_neg (by simp)]
              constructor
              · refine le_foldl_min _ INF (-17400) (by rw [INF]; omega) ?_
                intro x hx
                obtain ⟨mv, hmv, rfl⟩ := List.mem_map.mp hx
                exact (hchild mv hmv true).1
              · refine le_trans ?_ (hchild mv₀ hmv₀ true).2
                exact foldl_min_le_mem _ INF _ (List.mem_map_of_mem _ hmv₀)

/-- On a well-formed position, each root candidate's alpha-beta score with
the full window equals its plain minimax value. -/
theorem rootScore_eq_plain (s : GameState) (d : Nat) (ai : Player) (mv : Move)
    (hwf : WF s) (hmem : mv ∈ getAllMoves s ai) :
    rootScore s d ai mv = plainMinimax ai (d - 1) (simulateMove s mv) false := by
  have hwf' : WF (simulateMove s mv) := simulateMove_WF hwf (getAllMoves_mem hmem)
  have hb := plainMinimax_bound ai (d - 1) (simulateMove s mv) false hwf'
  obtain ⟨h1, h2, h3⟩ := minimax_ABSpec ai (d - 1) (simulateMove s mv) false NEG_INF INF
    (le_refl _) (by rw [NEG_INF, INF]; omega) (le_refl _)
  rw [rootScore]
  rcases le_or_lt (minimax ai (d - 1) (simulateMove s mv) false NEG_INF INF) NEG_INF
    with hlow | hlow
  · have := h1 hlow
    rw [NEG_INF] at *
    omega
  · rcases le_or_lt INF (minimax ai (d - 1) (simulateMove s mv) false NEG_INF INF)
      with hhigh | hhigh
    · have := h2 hhigh
      rw [NEG_INF, INF] at *
      omega
    · exact h3 hlow hhigh

/-! ## The root loop and the root sort -/

theorem bestLoop_snd (score : Move → Int) :
    ∀ (ms : List Move) (bm : Option Move) (bs : Int),
      (bestLoop score ms bm bs).2 = (ms.map score).foldl max bs := by
  intro ms
  induction ms with
  | nil => intro bm bs; rfl
  | cons mv rest ih =>
      intro bm bs
      rw [List.map_cons, List.foldl_cons]
      by_cases hcmp : bs < score mv
      · have hred : bestLoop score (mv :: rest) bm bs =
            bestLoop score rest (some mv) (score mv) := by
          rw [bestLoop, if_pos hcmp]
        rw [hred, ih, max_eq_right (le_of_lt hcmp)]
      · have hred : bestLoop score (mv :: rest) bm bs = bestLoop score rest bm bs := by
          rw [bestLoop, if_neg hcmp]
        push_neg at hcmp
        rw [hred, ih, max_eq_left hcmp]

theorem insertByCapturesDesc_perm (mv : Move) :
    ∀ l : List Move, (insertByCapturesDesc mv l).Perm (mv :: l) := by
  intro l
  induction l with
  | nil => exact List.Perm.refl _
  | cons y ys ih =>
      rw [insertByCapturesDesc]
      by_cases hc : y.captures.length ≤ mv.captures.length
      · rw [if_pos hc]
      · rw [if_neg hc]
        exact List.Perm.trans (List.Perm.cons y ih) (List.Perm.swap mv y ys)

theorem sortByCapturesDesc_perm :
    ∀ ms : List Move, (sortByCapturesDesc ms).Perm ms := by
  intro ms
  induction ms with
  | nil => exact List.Perm.refl _
  | cons mv rest ih =>
      rw [sortByCapturesDesc, List.foldr_cons]
      exact List.Perm.trans (insertByCapturesDesc_perm mv _) (List.Perm.cons mv ih)

theorem foldl_max_perm {l₁ l₂ : List Int} (h : l₁.Perm l₂) :
    ∀ a : Int, l₁.foldl max a = l₂.foldl max a := by
  induction h with
  | nil => intro a; rfl
  | cons x _ ih =>
      intro a
      rw [List.foldl_cons, List.foldl_cons, ih]
  | swap x y l =>
      intro a
      have hc : max (max a y) x = max (max a x) y := by
        rw [max_assoc, max_comm y x, ← max_assoc]
      rw [List.foldl_cons, List.foldl_cons, List.foldl_cons, List.foldl_cons, hc]
  | trans _ _ ih₁ ih₂ =>
      intro a
      rw [ih₁, ih₂]

/-! ## C2: the pruned, ordered root score equals the plain root score -/

/-- C2: with the side to move searching, the root score computed by
`getBestMove`'s alpha-beta search over the capture-sorted move list equals
the plain depth-limited minimax score over the same (unsorted) move set with
no pruning: ordering and pruning never change the returned value. -/
theorem C2_alphabeta_root_score_eq_plain (s : GameState) (d : Nat) (ai : Player)
    (hwf : WF s) (_hcp : s.currentPlayer = ai) (_hd : 1 ≤ d) :
    (getBestMovePair s d ai).2 = plainRootScore s d ai := by
  rw [getBestMovePair, plainRootScore, bestLoop_snd]
  have hperm : ((sortByCapturesDesc (getAllMoves s ai)).map (rootScore s d ai)).Perm
      ((getAllMoves s ai).map (rootScore s d ai)) :=
    (sortByCapturesDesc_perm (getAllMoves s ai)).map _
  rw [foldl_max_perm hperm NEG_INF]
  have hmap : (getAllMoves s ai).map (rootScore s d ai) =
      (getAllMoves s ai).map
        (fun mv => plainMinimax ai (d - 1) (simulateMove s mv) false) := by
    apply List.map_congr_left
    intro mv hmv
    exact rootScore_eq_plain s d ai mv hwf hmv
  rw [hmap]

/-- C2 witness: instantiated on the two-piece position at depth 1 with black
(the side to move) searching. -/
theorem C2_alphabeta_root_score_eq_plain_witness :
    WF exPair ∧ exPair.currentPlayer = .black ∧
    (getBestMovePair exPair 1 .black).2 = plainRootScore exPair 1 .black :=
  ⟨by decide, rfl,
   C2_alphabeta_root_score_eq_plain exPair 1 .black (by decide) rfl (by decide)⟩

/-! ## C5: which tied move the root loop returns -/

theorem bestLoop_stable (score : Move → Int) :
    ∀ (ms : List Move) (bm : Option Move) (bs : Int),
      (∀ mv ∈ ms, score mv ≤ bs) → (bestLoop score ms bm bs).1 = bm := by
  intro ms
  induction ms with
  | nil => intro bm bs _; rfl
  | cons mv rest ih =>
      intro bm bs h
      have hle : ¬bs < score mv := not_lt.mpr (h mv (List.mem_cons_self _ _))
      have hred : bestLoop score (mv :: rest) bm bs = bestLoop score rest bm bs := by
        rw [bestLoop, if_neg hle]
      rw [hred]
      exact ih bm bs (fun x hx => h x (List.mem_cons_of_mem _ hx))

theorem findCons_pos {α : Type} (p : α → Bool) (a : α) (l : List α) (h : p a = true) :
    (a :: l).find? p = some a := by
  simp [List.find?, h]

theorem findCons_neg {α : Type} (p : α → Bool) (a : α) (l : List α) (h : p a = false) :
    (a :: l).find? p = l.find? p := by
  simp [List.find?, h]

theorem bestLoop_fst (score : Move → Int) :
    ∀ (ms : List Move) (bm : Option Move) (bs : Int),
      (∃ mv ∈ ms, bs < score mv) →
      (bestLoop score ms bm bs).1 =
        ms.find? (fun mv => score mv == (ms.map score).foldl max bs) := by
  intro ms
  induction ms with
  | nil =>
      intro bm bs h
      obtain ⟨mv, hmv, _⟩ := h
      cases hmv
  | cons mv rest ih =>
      intro bm bs h
      simp only [List.map_cons, List.foldl_cons]
      by_cases hcmp : bs < score mv
      · have hmax : max bs (score mv) = score mv := max_eq_right (le_of_lt hcmp)
        simp only [hmax]
        have hred : bestLoop score (mv :: rest) bm bs =
            bestLoop score rest (some mv) (score mv) := by
          rw [bestLoop, if_pos hcmp]
        rw [hred]
        have hscM : score mv ≤ (rest.map score).foldl max (score mv) :=
          le_foldl_max _ _
        by_cases hM : (rest.map score).foldl max (score mv) ≤ score mv
        · have hMe : score mv = (rest.map score).foldl max (score mv) :=
            le_antisymm hscM hM
          rw [findCons_pos (fun x => score x == (rest.map score).foldl max (score mv))
            mv rest (beq_iff_eq.mpr hMe)]
          apply bestLoop_stable
          intro x hx
          calc score x ≤ (rest.map score).foldl max (score mv) :=
                mem_le_foldl_max _ _ _ (List.mem_map_of_mem _ hx)
            _ = score mv := hMe.symm
        · push_neg at hM
          rw [findCons_neg (fun x => score x == (rest.map score).foldl max (score mv))
            mv rest (beq_eq_false_iff_ne.mpr (ne_of_lt hM))]
          have hwit : ∃ x ∈ rest, score mv < score x := by
            rcases foldl_max_eq_init_or_mem (rest.map score) (score mv) with hh | ⟨x, hx, hh⟩
            · rw [hh] at hM
              exact absurd hM (lt_irrefl _)
            · obtain ⟨mv', hmv', rfl⟩ := List.mem_map.mp hx
              exact ⟨mv', hmv', by rw [← hh]; exact hM⟩
          exact ih (some mv) (score mv) hwit
      · have hmax : max bs (score mv) = bs := max_eq_left (not_lt.mp hcmp)
        simp only [hmax]
        have hred : bestLoop score (mv :: rest) bm bs = bestLoop score rest bm bs := by
          rw [bestLoop, if_neg hcmp]
        rw [hred]
        obtain ⟨mvw, hmvw, hbs⟩ := h
        have hmvw' : mvw ∈ rest := by
          rcases List.mem_cons.mp hmvw with rfl | hx
          · exact absurd hbs hcmp
          · exact hx
        have hbsM : bs < (rest.map score).foldl max bs :=
          lt_of_lt_of_le hbs (mem_le_foldl_max _ _ _ (List.mem_map_of_mem _ hmvw'))
        rw [findCons_neg (fun x => score x == (rest.map score).foldl max bs)
          mv rest (beq_eq_false_iff_ne.mpr (by
            intro heq
            rw [heq] at hcmp
            exact hcmp hbsM))]
        exact ih bm bs ⟨mvw, hmvw', hbs⟩

/-- C5 (amended): `getBestMove` is the first move attaining the maximal root
score in the order the root actually iterates — the generation order stably
re-sorted by descending capture count — not in raw generation order. -/
theorem C5_returns_first_max_of_sorted (s : GameState) (d : Nat) (ai : Player)
    (hwf : WF s) :
    getBestMove s d ai =
      (sortByCapturesDesc (getAllMoves s ai)).find?
        (fun mv => rootScore s d ai mv ==
          ((sortByCapturesDesc (getAllMoves s ai)).map (rootScore s d ai)).foldl
            max NEG_INF) := by
  rw [getBestMove, getBestMovePair]
  rcases hms : sortByCapturesDesc (getAllMoves s ai) with _ | ⟨mv, rest⟩
  · rfl
  · apply bestLoop_fst
    refine ⟨mv, List.mem_cons_self _ _, ?_⟩
    have hmem : mv ∈ getAllMoves s ai := by
      refine (sortByCapturesDesc_perm (getAllMoves s ai)).subset ?_
      rw [hms]
      exact List.mem_cons_self _ _
    rw [rootScore_eq_plain s d ai mv hwf hmem]
    have hb := plainMinimax_bound ai (d - 1) (simulateMove s mv) false
      (simulateMove_WF hwf (getAllMoves_mem hmem))
    rw [NEG_INF]
    omega

/-- C5 counterexample: in `exTie` at depth 1 every move ties at the win
score; the first tied move in generation order is the quiet move
(4,4)→(3,4), but `getBestMove` returns the capture move (4,4)→(2,4), which
the stable capture-count sort moved to the front. -/
theorem C5_counterexample :
    (getAllMoves exTie .black).find?
        (fun mv => rootScore exTie 1 .black mv ==
          ((getAllMoves exTie .black).map (rootScore exTie 1 .black)).foldl
            max NEG_INF) = some mvTieQuiet ∧
    getBestMove exTie 1 .black = some mvTieCapture ∧
    getBestMove exTie 1 .black ≠
      (getAllMoves exTie .black).find?
        (fun mv => rootScore exTie 1 .black mv ==
          ((getAllMoves exTie .black).map (rootScore exTie 1 .black)).foldl
            max NEG_INF) := by
  have hfind : (getAllMoves exTie .black).find?
      (fun mv => rootScore exTie 1 .black mv ==
        ((getAllMoves exTie .black).map (rootScore exTie 1 .black)).foldl
          max NEG_INF) = some mvTieQuiet := by rfl
  have hbest : getBestMove exTie 1 .black = some mvTieCapture := by rfl
  refine ⟨hfind, hbest, ?_⟩
  rw [hfind, hbest]
  decide

/-- C5 witness: instantiation of the amended tie-break rule on the
two-piece position. -/
theorem C5_returns_first_max_of_sorted_witness :
    WF exPair ∧
    getBestMove exPair 1 .black =
      (sortByCapturesDesc (getAllMoves exPair .black)).find?
        (fun mv => rootScore exPair 1 .black mv ==
          ((sortByCapturesDesc (getAllMoves exPair .black)).map
            (rootScore exPair 1 .black)).foldl max NEG_INF) :=
  ⟨by decide, C5_returns_first_max_of_sorted exPair 1 .black (by decide)⟩

end FiveHorse
